import Mathlib

/-!
Verification development for the evaluation-orchestration pipeline of this
repository (`src/lib/doubao.ts`, `src/lib/llamaindex.ts`).

The TypeScript sources are shallowly embedded: pure functions become Lean
functions, the stateful batch loop becomes explicit state passing, machine
numbers become `Nat`/`Int`/`ℚ`, and fallible calls return `Except`.  The
external capabilities (the LLM transport, `JSON.parse`, and the byte length
of `JSON.stringify` on a single file object) are parameters of the
embedding; everything built on top of them is translated line by line from
the source.
-/

/-- A scored file, `{path, content, relevance}` (`relevantFiles` entries in
`doubao.ts`).  Relevance is a rational standing for the JS number. -/
structure ScoredFile where
  path : String
  content : String
  relevance : ℚ
deriving DecidableEq, Repr

/-- Serialized size of a JS array of files, in terms of the per-file
serialized size `sz` (the `JSON.stringify(files).length` appearing in
`createSmartFileBatches`): `[]` serializes to 2 characters, otherwise the
brackets plus the files joined by commas. -/
def listJsonSize (sz : ScoredFile → Nat) (fs : List ScoredFile) : Nat :=
  if fs.isEmpty then 2 else (fs.map sz).sum + fs.length + 1

/-- JS `text.split(sep)` for a one-character separator, on character lists
(`"".split('/')` gives `[""]`, separators at the ends give empty pieces,
exactly as in JS). -/
def splitOnChar (isSep : Char → Bool) : List Char → List (List Char)
  | [] => [[]]
  | c :: t =>
    if isSep c then [] :: splitOnChar isSep t
    else
      match splitOnChar isSep t with
      | [] => [[c]]
      | h :: r => (c :: h) :: r

/-- JS `s.startsWith(pre)`. -/
def strStartsWith (s pre : String) : Bool :=
  pre.toList.isPrefixOf s.toList

/-- JS `s.endsWith(suf)`. -/
def strEndsWith (s suf : String) : Bool :=
  suf.toList.reverse.isPrefixOf s.toList.reverse

/-- JS `s.trim()` on a character list. -/
def trimChars (l : List Char) : List Char :=
  ((l.dropWhile Char.isWhitespace).reverse.dropWhile Char.isWhitespace).reverse

/-- Directory of a path: `file.path.split('/').slice(0, -1).join('/')`. -/
def dirOf (p : String) : String :=
  ⟨List.intercalate ['/'] ((splitOnChar (fun c => c == '/') p.toList).dropLast)⟩

/-- Directory keys in first-occurrence order (iteration order of the
`directoryMap` object built in `createSmartFileBatches`). -/
def dirKeys (files : List ScoredFile) : List String :=
  files.foldl (fun acc f => if dirOf f.path ∈ acc then acc else acc ++ [dirOf f.path]) []

/-- The files of one directory group (`directoryMap[dirPath]`). -/
def dirFilesOf (files : List ScoredFile) (d : String) : List ScoredFile :=
  files.filter (fun f => dirOf f.path == d)

/-- The `FileGroup` record of `doubao.ts`: the files placed in one batch,
the running serialized-size account, and the per-directory score table. -/
structure FileGroup where
  files : List ScoredFile
  totalSize : Nat
  directoryScore : List (String × Nat)
deriving DecidableEq, Repr

/-- Lookup `group.directoryScore[dirPath] || 0`. -/
def dsGet (ds : List (String × Nat)) (k : String) : Nat :=
  (ds.lookup k).getD 0

/-- Update `group.directoryScore[k] = (group.directoryScore[k] || 0) + v`: update in
place when the key exists (JS objects keep key order), append otherwise. -/
def dsAdd : List (String × Nat) → String → Nat → List (String × Nat)
  | [], k, v => [(k, v)]
  | (k', v') :: rest, k, v =>
    if k' = k then (k', v' + v) :: rest else (k', v') :: dsAdd rest k v

/-- Merge the directory scores of an absorbed group into the current one
(the loop `for (const dir in next.directoryScore)` of the compaction pass). -/
def dsMerge (a b : List (String × Nat)) : List (String × Nat) :=
  b.foldl (fun acc e => dsAdd acc e.1 e.2) a

/-- Affinity score of a directory against a group: the group's own tally for
the directory, plus 2 for every directory already in the group that is
prefix-related to it (the score loop of `createSmartFileBatches`). -/
def affinity (g : FileGroup) (dirPath : String) : Int :=
  (dsGet g.directoryScore dirPath : Int) +
    2 * ((g.directoryScore.countP
      (fun e => strStartsWith dirPath e.1 || strStartsWith e.1 dirPath) : Nat) : Int)

/-- Replace the element at one position, identity when out of range. -/
def updateAt : Nat → (α → α) → List α → List α
  | _, _, [] => []
  | 0, f, x :: xs => f x :: xs
  | n + 1, f, x :: xs => x :: updateAt n f xs

/-- The best-group selection loop: walk the groups with their indices,
skip groups without capacity, and keep the highest affinity score,
tie-broken by the smaller current size; `bs` starts at `-1`. -/
def bestGroupAux (B dirSize : Nat) (dirPath : String) :
    List FileGroup → Nat → Int → Nat → Nat → Int × Nat
  | [], _, bs, bi, _ => (bs, bi)
  | g :: gs, i, bs, bi, bsz =>
    if B < g.totalSize + dirSize then bestGroupAux B dirSize dirPath gs (i + 1) bs bi bsz
    else
      let sc := affinity g dirPath
      if bs < sc ∨ (sc = bs ∧ g.totalSize < bsz) then
        bestGroupAux B dirSize dirPath gs (i + 1) sc i g.totalSize
      else bestGroupAux B dirSize dirPath gs (i + 1) bs bi bsz

/-- Placing a whole directory (the `dirSize <= maxBatchSize * 0.8` branch):
pick the best group, re-check capacity, and either extend it or open a new
group holding the directory. -/
def placeDirWhole (B : Nat) (dirPath : String) (dirFiles : List ScoredFile)
    (dirSize : Nat) (groups : List FileGroup) : List FileGroup :=
  let r := bestGroupAux B dirSize dirPath groups 0 (-1) 0 ((groups.headD ⟨[], 0, []⟩).totalSize)
  if r.1 < 0 ∨ B < (groups.getD r.2 ⟨[], 0, []⟩).totalSize + dirSize then
    groups ++ [⟨dirFiles, dirSize, [(dirPath, 1)]⟩]
  else
    updateAt r.2 (fun g =>
      ⟨g.files ++ dirFiles, g.totalSize + dirSize, dsAdd g.directoryScore dirPath 1⟩) groups

/-- First-fit placement of a single file (the oversized-directory branch):
the first group with room takes it, otherwise a new group is opened. -/
def placeFileFF (B : Nat) (sz : ScoredFile → Nat) (dirPath : String) (f : ScoredFile) :
    List FileGroup → List FileGroup
  | [] => [⟨[f], sz f, [(dirPath, 1)]⟩]
  | g :: gs =>
    if g.totalSize + sz f ≤ B then
      ⟨g.files ++ [f], g.totalSize + sz f, dsAdd g.directoryScore dirPath 1⟩ :: gs
    else g :: placeFileFF B sz dirPath f gs

/-- Stable insertion by a boolean "may precede" relation. -/
def orderedInsertBy (le : α → α → Bool) (a : α) : List α → List α
  | [] => [a]
  | b :: l => if le a b then a :: b :: l else b :: orderedInsertBy le a l

/-- Stable insertion sort, standing for the (stable) `Array.prototype.sort`. -/
def insertionSortBy (le : α → α → Bool) : List α → List α
  | [] => []
  | a :: l => orderedInsertBy le a (insertionSortBy le l)

/-- One directory of the placement loop: a directory whose serialized size is
at most 0.8 of the budget is placed whole; a bigger one is split file by
file, sorted by descending relevance, with first fit.  The `0.8`
comparison is taken exactly (`10·dirSize ≤ 8·B`). -/
def placeDir (sz : ScoredFile → Nat) (B : Nat) (groups : List FileGroup)
    (d : String) (dirFiles : List ScoredFile) : List FileGroup :=
  let dirSize := listJsonSize sz dirFiles
  if 10 * dirSize ≤ 8 * B then placeDirWhole B d dirFiles dirSize groups
  else
    (insertionSortBy (fun a b => decide (b.relevance ≤ a.relevance)) dirFiles).foldl
      (fun gs f => placeFileFF B sz d f gs) groups

/-- The placement phase: start from one empty group and place every
directory group in key order. -/
def smartGroups (sz : ScoredFile → Nat) (files : List ScoredFile) (B : Nat) :
    List FileGroup :=
  (dirKeys files).foldl (fun gs d => placeDir sz B gs d (dirFilesOf files d)) [⟨[], 0, []⟩]

/-- Merge an absorbed group into the current one. -/
def mergeGroups (cur g : FileGroup) : FileGroup :=
  ⟨cur.files ++ g.files, cur.totalSize + g.totalSize, dsMerge cur.directoryScore g.directoryScore⟩

/-- The inner compaction loop: walk the groups after the current one and fold
into the current group every group that still fits in the budget
(`fileGroups.splice(j, 1); j--`), returning the grown group and the
survivors. -/
def absorb (B : Nat) (cur : FileGroup) : List FileGroup → FileGroup × List FileGroup
  | [] => (cur, [])
  | g :: rest =>
    if cur.totalSize + g.totalSize ≤ B then absorb B (mergeGroups cur g) rest
    else
      let r := absorb B cur rest
      (r.1, g :: r.2)

/-- The outer compaction loop over the sorted groups; each group below half
the budget (`totalSize < maxBatchSize * 0.5`, taken exactly as
`2·totalSize < B`) absorbs later groups.  The loop is run with list-length
fuel; the fuel never runs out on the calls the program makes. -/
def compactAux (B : Nat) : Nat → List FileGroup → List FileGroup
  | _, [] => []
  | 0, l => l
  | fuel + 1, g :: rest =>
    if 2 * g.totalSize < B then
      let r := absorb B g rest
      r.1 :: compactAux B fuel r.2
    else g :: compactAux B fuel rest

/-- The compaction pass of `createSmartFileBatches`. -/
def compact (B : Nat) (l : List FileGroup) : List FileGroup :=
  compactAux B l.length l

/-- Embedding of `createSmartFileBatches`, kept at the granularity of `FileGroup`s so the
partitioner's own size accounting stays visible: the whole set is one
group when it fits the budget, otherwise the groups are placed, sorted
ascending by size, and compacted. -/
def createSmartFileBatchesSized (sz : ScoredFile → Nat) (files : List ScoredFile)
    (B : Nat) : List FileGroup :=
  if listJsonSize sz files ≤ B then [⟨files, listJsonSize sz files, []⟩]
  else
    compact B (insertionSortBy (fun a b => decide (a.totalSize ≤ b.totalSize))
      (smartGroups sz files B))

/-- Embedding of `createSmartFileBatches(files, maxBatchSize)`: the final batches are the
file lists of the groups. -/
def createSmartFileBatches (sz : ScoredFile → Nat) (files : List ScoredFile)
    (B : Nat) : List (List ScoredFile) :=
  (createSmartFileBatchesSized sz files B).map FileGroup.files

/-! ### Response extraction (`extractJsonFromMarkdown` in `doubao.ts`) -/

/-- One checkpoint entry of a parsed verdict; the empty string stands for a
JS-falsy (absent or empty) field. -/
structure Checkpoint where
  requirement : String
  status : String
  details : String
deriving DecidableEq, Repr

/-- Open-record view of a JS value as far as the pipeline inspects it:
each field is `none` when absent or of the wrong shape (`Array.isArray` /
`typeof === 'string'` guards in the source). -/
structure RawContent where
  assessment : Option ℚ := none
  checkpoints : Option (List Checkpoint) := none
  summary : Option String := none
  improvements : Option (List String) := none
  textContent : Option String := none
  isJsonFormat : Option Bool := none
  message : Option String := none
deriving DecidableEq, Repr

/-- A `CodeEvaluationResult`: `rawContent` is `none` only in the failure
records the batch loop writes. -/
structure CodeEvaluationResult where
  rawContent : Option RawContent
deriving DecidableEq, Repr

/-- The abstract `JSON.parse` capability: `some` when the text parses to a
(truthy) value, seen through the open-record view; `none` on a parse
exception or a falsy parse, which the source treats identically here. -/
def JsonParser : Type := String → Option RawContent

/-- Match of the fenced-code-block regex
`/```(?:json)?\s*\n([\s\S]*?)\n```/m` starting exactly at the head of the
character list: after the backticks (optionally `json`), whitespace up to
and including a newline, then the lazily-matched interior up to the first
`"\n```"`. -/
def fencedAtHead (cs : List Char) : Option (List Char) :=
  if ['`', '`', '`'].isPrefixOf cs then
    let afterTicks := cs.drop 3
    let branches :=
      if ['j', 's', 'o', 'n'].isPrefixOf afterTicks then
        [afterTicks.drop 4, afterTicks]
      else [afterTicks]
    branches.firstM (fun b =>
      let run := b.takeWhile Char.isWhitespace
      match (List.range run.length).filter (fun i => run.getD i ' ' = '\n') with
      | [] => none
      | is =>
        let lastNl := is.getLast!
        let body := b.drop (lastNl + 1)
        let rec takeUntilClose : List Char → Option (List Char)
          | [] => none
          | c :: t =>
            if ['\n', '`', '`', '`'].isPrefixOf (c :: t) then some []
            else (takeUntilClose t).map (c :: ·)
        takeUntilClose body)
  else none

/-- Leftmost match of the fenced-code-block regex over the whole text. -/
def fencedBlock (text : String) : Option String :=
  let rec scan : List Char → Option (List Char)
    | [] => none
    | c :: t =>
      match fencedAtHead (c :: t) with
      | some r => some r
      | none => scan t
  (scan text.toList).map (fun l => ⟨l⟩)

/-- Embedding of `extractJsonFromMarkdown` of `doubao.ts`: parse the whole text, else
parse the interior of the first fenced code block, else `null`. -/
def extractJsonFromMarkdown (jp : JsonParser) (text : String) : Option RawContent :=
  match jp text with
  | some v => some v
  | none =>
    match fencedBlock text with
    | some inner => jp inner
    | none => none

/-! ### `evaluateCode`: the retry/failover loop -/

/-- Events a single `evaluateCode` call emits: one entry per Evaluator
attempt (with the endpoint it was made against) and one per blocking wait. -/
inductive REvent where
  | attempt (retryCount : Nat) (url : String)
  | sleep (ms : Nat)
deriving DecidableEq, Repr

deriving instance DecidableEq for Except

/-- Outcome of one `evaluateCode` call: the result (`Except` for a thrown
error), the events, and the module-global client endpoint it leaves behind. -/
structure EvalOut where
  result : Except String CodeEvaluationResult
  trace : List REvent
  client : String
deriving DecidableEq, Repr

/-- Embedding of `getMockEvaluationResult()` of `doubao.ts`. -/
def mockEvaluationResult : CodeEvaluationResult :=
  ⟨some
    { assessment := some 0.68
      checkpoints := some
        [⟨"User login functionality", "✅ Completed", "Login functionality works correctly"⟩,
         ⟨"Password reset functionality", "❌ Not completed", "Missing password reset process"⟩,
         ⟨"Security protection mechanisms", "⚠️ Partially completed",
          "Missing CAPTCHA protection against brute force attacks"⟩]
      summary := some "✅Complete login process | ✅User-friendly UI | ❌Missing password reset | ❌No remembered login state | ⚠️No CAPTCHA for brute force protection | ⚠️Insufficient password strength detection"
      improvements := some
        ["Improvement 1: Please explain in detail how to implement SMS verification code login functionality, including files to modify and specific code examples",
         "Improvement 2: Please explain in three steps how to add password reset functionality, and provide complete implementation ideas and code examples",
         "Improvement 3: Please provide 5 approaches to prevent brute force login attacks"] }⟩

/-- Wrapping of a successful response: the parsed content when extraction
succeeds, the tagged unstructured wrapper otherwise. -/
def mkEvalResult (jp : JsonParser) (text : String) : CodeEvaluationResult :=
  match extractJsonFromMarkdown jp text with
  | some p => ⟨some p⟩
  | none =>
    ⟨some { textContent := some text, isJsonFormat := some false,
            message := some "原始响应不是有效的JSON格式，已转换为对象" }⟩

/-- Environment flags of the source: `NODE_ENV === 'development'`, presence
of `DASHSCOPE_API_KEY`, and `USE_MOCK_DATA === 'true'`. -/
structure Env where
  dev : Bool
  hasKey : Bool
  useMockEnv : Bool
deriving DecidableEq, Repr

/-- Embedding of `shouldUseMockData()`. -/
def shouldUseMockData (env : Env) : Bool :=
  (env.dev && !env.hasKey) || env.useMockEnv

/-- The `while (retryCount < maxRetries)` loop of `evaluateCode`, run on
`remaining = maxRetries - retryCount` so it computes by structural
recursion.  Before a retry (never the first attempt) the loop advances to
the next endpoint while one remains, waits happen between attempts, and
exhaustion either returns the mock result (development) or throws the
wrapped error. -/
def evalLoop (jp : JsonParser) (urls : List String) (oracle : Nat → Except String String)
    (dev : Bool) : Nat → Nat → Nat → String → List REvent → EvalOut
  | 0, _, _, client, tr => ⟨.error "代码评估失败: ", tr, client⟩
  | remaining + 1, retryCount, urlIdx, client, tr =>
    let next :=
      if 0 < retryCount ∧ urlIdx + 1 < urls.length then
        (urlIdx + 1, urls.getD (urlIdx + 1) client)
      else (urlIdx, client)
    let tr := tr ++ [.attempt retryCount next.2]
    match oracle retryCount with
    | .ok text => ⟨.ok (mkEvalResult jp text), tr, next.2⟩
    | .error e =>
      match remaining with
      | 0 =>
        if dev then ⟨.ok mockEvaluationResult, tr, next.2⟩
        else ⟨.error ("代码评估失败: " ++ e), tr, next.2⟩
      | r + 1 =>
        evalLoop jp urls oracle dev (r + 1) (retryCount + 1) next.1 next.2
          (tr ++ [.sleep 2000])

/-- Embedding of `evaluateCode(params)`: mock short-circuit, else the retry loop with
`maxRetries = 3` starting from the current module-global client.  The
Evaluator transport is abstracted by `oracle`, giving the raw text or the
error of each attempt. -/
def evaluateCode (jp : JsonParser) (urls : List String) (oracle : Nat → Except String String)
    (env : Env) (client : String) : EvalOut :=
  if shouldUseMockData env then ⟨.ok mockEvaluationResult, [], client⟩
  else evalLoop jp urls oracle env.dev 3 0 0 client []

/-! ### `evaluateCodeInBatches`: the batch orchestration loop -/

/-- The record `CodeEvaluationParams` of `doubao.ts`. -/
structure CodeEvaluationParams where
  projectDetail : String
  tasks : List String
  currentTask : String
  evidence : String
  githubRepoUrl : String
  repoSummary : String
  relevantFiles : List ScoredFile
  youtubeLink : Option String := none
deriving DecidableEq, Repr

/-- The record `BatchEvaluationResult` of `doubao.ts`. -/
structure BatchEvaluationResult where
  batch : Nat
  totalBatches : Nat
  result : CodeEvaluationResult
  processedFiles : List String
  success : Bool
  error : Option String := none
deriving DecidableEq, Repr

/-- The record `BatchContext` of `doubao.ts`: the simulated-memory state threaded
between batches. -/
structure BatchContext where
  processedFiles : List String
  keyInsights : List String
  batchResults : List BatchEvaluationResult
deriving DecidableEq, Repr

/-- The `"<requirement>: <status>"` insights of a parsed batch result: the
checkpoints having a truthy status and details, capped at 3
(`insights.slice(0, 3)`). -/
def checkpointInsights (rc : RawContent) : List String :=
  match rc.checkpoints with
  | none => []
  | some cps =>
    ((cps.filter (fun cp => !(cp.status == "") && !(cp.details == ""))).map
      (fun cp => cp.requirement ++ ": " ++ cp.status)).take 3

/-- The summary-fragment insights: the summary split on `| , ;` or `.`,
keeping fragments whose trimmed length exceeds 10, capped at 2. -/
def summaryInsights (rc : RawContent) : List String :=
  match rc.summary with
  | none => []
  | some s =>
    (((splitOnChar (fun c => c == '|' || c == ',' || c == ';' || c == '.') s.toList).filter
      (fun p => 10 < (trimChars p).length)).map (fun l => (⟨l⟩ : String))).take 2

/-- Trim `if (context.keyInsights.length > 5) keyInsights = keyInsights.slice(0, 5)`. -/
def trim5 (l : List String) : List String :=
  if 5 < l.length then l.take 5 else l

/-- The insight-extraction step run after a successful non-final batch. -/
def pushInsights (ki : List String) (rc : RawContent) : List String :=
  trim5 (ki ++ checkpointInsights rc ++ summaryInsights rc)

/-- Embedding of `createBatchPrompt` of `doubao.ts`. -/
def createBatchPrompt (batchNumber totalBatches : Nat) (context : BatchContext)
    (isLastBatch : Bool) : String :=
  if batchNumber = 1 then
    "This is batch 1/" ++ toString totalBatches ++ " of the code assessment.\nPlease first read and understand the content of the code files below. More files will be provided in later batches.\nAnalyze the structure, functionality, and implementation of these files, but do not perform final evaluation or scoring yet.\nRemember what you see, as later batches will require you to use this information."
  else if isLastBatch then
    let previousFiles :=
      if !context.processedFiles.isEmpty then
        "\n\n## Files you have analyzed in previous batches:\n" ++
          String.intercalate "\n" (context.processedFiles.map (fun p => "- " ++ p))
      else ""
    let insights :=
      if !context.keyInsights.isEmpty then
        "\n\n## Key code characteristics you discovered in previous batches:\n" ++
          String.intercalate "\n"
            (context.keyInsights.enum.map (fun e => toString (e.1 + 1) ++ ". " ++ e.2))
      else ""
    "## This is the final batch of code assessment (" ++ toString batchNumber ++ "/" ++
      toString totalBatches ++ ")\n\nYou now need to complete two tasks:\n1. Analyze the code files in this batch\n2. Perform a comprehensive evaluation incorporating all files from all batches (previous and current)\n\nPlease note: Your assessment must be based on all the files you have reviewed, not just the files in the current batch.\nFiles you have seen previously are equally important and must be included in your final assessment." ++
      previousFiles ++ insights ++
      "\n\nAfter analyzing the code in this batch, please conduct a thorough evaluation against the assessment criteria, providing a detailed report and score."
  else
    let previousFiles :=
      if !context.processedFiles.isEmpty then
        "\n\nFiles you have analyzed in previous batches:\n" ++
          String.intercalate "\n" (context.processedFiles.map (fun p => "- " ++ p))
      else ""
    let insights :=
      if !context.keyInsights.isEmpty then
        "\n\nKey code characteristics you discovered in previous batches:\n" ++
          String.intercalate "\n"
            (context.keyInsights.enum.map (fun e => toString (e.1 + 1) ++ ". " ++ e.2))
      else ""
    "## This is batch " ++ toString batchNumber ++ "/" ++ toString totalBatches ++
      " of the code assessment\n\nPlease continue analyzing the code files below, but do not perform final evaluation or scoring yet.\nYou have already analyzed " ++
      toString context.processedFiles.length ++
      " files in previous batches and will now analyze more files." ++ previousFiles ++
      insights ++
      "\n\nRemember what you see in this batch and relate it to your previous batch analyses. The final batch will ask you to evaluate all files comprehensively."

/-- The per-batch parameter rewrite of the orchestration loop. -/
def mkBatchParams (params : CodeEvaluationParams) (batch : List ScoredFile)
    (batchNumber totalBatches : Nat) (context : BatchContext) (isLastBatch : Bool) :
    CodeEvaluationParams :=
  { params with
    relevantFiles := batch
    projectDetail :=
      createBatchPrompt batchNumber totalBatches context isLastBatch ++ "\n\n" ++
        params.projectDetail
    currentTask :=
      "[Batch " ++ toString batchNumber ++ "/" ++ toString totalBatches ++ "] " ++
        params.currentTask ++
        (if isLastBatch then " - Comprehensive evaluation" else " - Analysis mode")
    repoSummary :=
      params.repoSummary ++
        (if isLastBatch then
          "\n\n[Final batch] Please provide a comprehensive evaluation based on all batch files."
        else
          "\n\n[Batch " ++ toString batchNumber ++ "/" ++ toString totalBatches ++
            "] Please analyze these files, remember the content, but do not provide final evaluation.") }

/-- One entry of `batchAnalyses`: the data the reconciliation prompt is
built from. -/
structure BatchAnalysis where
  batch : Nat
  files : List String
  insights : List Checkpoint
  summary : String
deriving DecidableEq, Repr

/-- The list `batchAnalyses`: the successful batch results with parsed content
(`br.success && br.result.rawContent`, then `.filter(Boolean)`). -/
def batchAnalysesOf (batchResults : List BatchEvaluationResult) : List BatchAnalysis :=
  batchResults.filterMap (fun br =>
    if br.success then
      match br.result.rawContent with
      | some rc => some ⟨br.batch, br.processedFiles, rc.checkpoints.getD [], rc.summary.getD ""⟩
      | none => none
    else none)

/-- The reconciliation prompt (`summaryPrompt`), built only from the batch
count, the processed paths and the per-batch analyses. -/
def mkSummaryPrompt (totalBatches : Nat) (processedFiles : List String)
    (batchAnalyses : List BatchAnalysis) : String :=
  "Please provide a comprehensive evaluation based on all batch code analysis results. This is a summary of analysis across all batches (total " ++
    toString totalBatches ++ " batches).\n            \nYou have analyzed the following files:\n" ++
    String.intercalate "\n" (processedFiles.map (fun p => "- " ++ p)) ++
    "\n\nEach batch analysis summary:\n" ++
    String.intercalate "\n" (batchAnalyses.map (fun ba =>
      "\n--- Batch " ++ toString ba.batch ++ " Analysis ---\nFiles: " ++
        String.intercalate ", " ba.files ++ "\n" ++
        (if ba.summary == "" then "" else "Summary: " ++ ba.summary) ++ "\n")) ++
    "\n\nPlease conduct a thorough evaluation based on all these information, against the assessment criteria.\nYour assessment must consider all files from all batches, not just the last batch."

/-- The reconciliation request (`summaryParams`): no file content, only the
prompt holding the processed paths and per-batch summaries. -/
def mkSummaryParams (params : CodeEvaluationParams) (totalBatches : Nat)
    (context : BatchContext) : CodeEvaluationParams :=
  { params with
    projectDetail :=
      params.projectDetail ++ "\n\n" ++
        mkSummaryPrompt totalBatches context.processedFiles (batchAnalysesOf context.batchResults)
    relevantFiles := []
    currentTask :=
      "Final comprehensive evaluation - Analysis based on " ++
        toString context.processedFiles.length ++ " files"
    repoSummary :=
      params.repoSummary ++ "\n\n[Comprehensive evaluation] Based on analysis across all " ++
        toString totalBatches ++ " batches for final assessment." }

/-- Which call site of `evaluateCode` a recorded call came from. -/
inductive CallKind where
  | single
  | batch (batchNumber totalBatches : Nat)
  | reconciliation
deriving DecidableEq, Repr

/-- A recorded `evaluateCode` invocation of the orchestrator. -/
structure CallRecord where
  kind : CallKind
  params : CodeEvaluationParams
  out : EvalOut
deriving DecidableEq, Repr

/-- Result of a whole `evaluateCodeInBatches` run, instrumented with the
calls that were made and the context after each batch. -/
structure RunOut where
  result : Except String CodeEvaluationResult
  calls : List CallRecord
  snapshots : List BatchContext
deriving DecidableEq, Repr

/-- The `isLastBatch` tail of the loop body: collect `batchAnalyses`, issue
the reconciliation call when more than one analysis exists, and fall back
to the final batch's own result when that call fails. -/
def finishFinal (jp : JsonParser) (urls : List String)
    (oracles : Nat → Nat → Except String String) (env : Env)
    (params : CodeEvaluationParams) (totalBatches : Nat) (ctx : BatchContext)
    (res : CodeEvaluationResult) (callIdx : Nat) (client : String)
    (calls : List CallRecord) (snaps : List BatchContext) : RunOut :=
  let batchAnalyses := batchAnalysesOf ctx.batchResults
  if 1 < batchAnalyses.length then
    let summaryParams := mkSummaryParams params totalBatches ctx
    let eo := evaluateCode jp urls (oracles (callIdx + 1)) env client
    let calls := calls ++ [⟨.reconciliation, summaryParams, eo⟩]
    match eo.result with
    | .ok r2 => ⟨.ok r2, calls, snaps ++ [ctx]⟩
    | .error _ => ⟨.ok res, calls, snaps ++ [ctx]⟩
  else ⟨.ok res, calls, snaps ++ [ctx]⟩

/-- The `for (let i = 0; i < batches.length; i++)` loop of
`evaluateCodeInBatches`: each batch is evaluated with its continuation
prompt; a failure on a non-final batch records a failed outcome and
continues, a failure on the final batch is rethrown; a final-batch success
runs `finishFinal`. -/
def batchLoop (jp : JsonParser) (urls : List String)
    (oracles : Nat → Nat → Except String String) (env : Env)
    (params : CodeEvaluationParams) (totalBatches : Nat) :
    List (List ScoredFile) → Nat → BatchContext → Option CodeEvaluationResult →
      Nat → String → List CallRecord → List BatchContext → RunOut
  | [], _, _, lastResult, _, _, calls, snaps =>
    match lastResult with
    | none => ⟨.error "所有批次处理都失败了", calls, snaps⟩
    | some r => ⟨.ok r, calls, snaps⟩
  | batch :: rest, i, ctx, lastResult, callIdx, client, calls, snaps =>
    let isLast := rest.isEmpty
    let batchNumber := i + 1
    let batchParams := mkBatchParams params batch batchNumber totalBatches ctx isLast
    let eo := evaluateCode jp urls (oracles callIdx) env client
    let calls := calls ++ [⟨.batch batchNumber totalBatches, batchParams, eo⟩]
    match eo.result with
    | .error e =>
      let ctx' := { ctx with
        batchResults := ctx.batchResults ++
          [⟨batchNumber, totalBatches, ⟨none⟩, batch.map (·.path), false, some e⟩] }
      if isLast then ⟨.error e, calls, snaps ++ [ctx']⟩
      else
        batchLoop jp urls oracles env params totalBatches rest (i + 1) ctx' lastResult
          (callIdx + 1) eo.client calls (snaps ++ [ctx'])
    | .ok res =>
      let ctx1 := { ctx with
        processedFiles := ctx.processedFiles ++ batch.map (·.path)
        batchResults := ctx.batchResults ++
          [⟨batchNumber, totalBatches, res, batch.map (·.path), true, none⟩] }
      let ctx2 :=
        if !isLast then
          match res.rawContent with
          | some rc => { ctx1 with keyInsights := pushInsights ctx1.keyInsights rc }
          | none => ctx1
        else ctx1
      if isLast then
        finishFinal jp urls oracles env params totalBatches ctx2 res callIdx eo.client
          calls snaps
      else
        batchLoop jp urls oracles env params totalBatches rest (i + 1) ctx2 (some res)
          (callIdx + 1) eo.client calls (snaps ++ [ctx2])

/-- The constant `MAX_BATCH_CHARS` of `evaluateCodeInBatches`. -/
def MAX_BATCH_CHARS : Nat := 300000

/-- Embedding of `evaluateCodeInBatches(params)`: mock short-circuit; smart batching with
the 300k-character budget; the single-batch shortcut evaluates the
original request directly; otherwise the batch loop runs from the empty
context. -/
def evaluateCodeInBatches (sz : ScoredFile → Nat) (jp : JsonParser) (urls : List String)
    (oracles : Nat → Nat → Except String String) (env : Env)
    (params : CodeEvaluationParams) (client : String) : RunOut :=
  if shouldUseMockData env then ⟨.ok mockEvaluationResult, [], []⟩
  else
    let batches := createSmartFileBatches sz params.relevantFiles MAX_BATCH_CHARS
    if batches.length = 1 then
      let eo := evaluateCode jp urls (oracles 0) env client
      ⟨eo.result, [⟨.single, params, eo⟩], []⟩
    else
      batchLoop jp urls oracles env params batches.length batches 0 ⟨[], [], []⟩ none 0
        client [] []

/-! ### Relevance scoring (`calculateRelevanceScore` in `llamaindex.ts`) -/

/-- Count of non-overlapping, left-to-right matches of `n` in `h` (the
`matches.length` of a global regex whose pattern is the escaped literal
token); fuel is the haystack length. -/
def countOccAux (n : List Char) : Nat → List Char → Nat
  | 0, _ => 0
  | _, [] => 0
  | fuel + 1, c :: t =>
    if n.isPrefixOf (c :: t) then 1 + countOccAux n fuel ((c :: t).drop n.length)
    else countOccAux n fuel t

/-- Occurrence count of a non-empty token; the scorer only ever counts
tokens of length > 3. -/
def countOcc (n h : List Char) : Nat :=
  if n.isEmpty then 0 else countOccAux n h.length h

/-- JS `haystack.includes(needle)` on strings. -/
def strContains (s sub : String) : Bool :=
  sub.toList.isEmpty || !(countOcc sub.toList s.toList == 0)

/-- The whitespace-delimited tokens of length > 3 of a text. -/
def tokensOf (text : String) : List (List Char) :=
  (splitOnChar Char.isWhitespace text.toLower.toList).filter (fun w => 3 < w.length)

/-- Embedding of `calculateWordMatchScore` of `llamaindex.ts`: split the lower-cased text
on whitespace, keep tokens of length > 3, and for each token add the path
weight when the lower-cased path contains it plus the content weight times
the occurrence count in the lower-cased content capped at 10. -/
def calculateWordMatchScore (lowerPath lowerContent : String) (text : String)
    (pathWeight contentWeight : ℚ) : ℚ :=
  (tokensOf text).foldl (fun acc word =>
    let acc := if strContains lowerPath ⟨word⟩ then acc + pathWeight else acc
    acc + contentWeight * ((min (countOcc word lowerContent.toList) 10 : Nat) : ℚ)) 0

/-- Fixed path-shape bonuses of `calculateRelevanceScore`. -/
def pathBonus (lowerPath : String) : ℚ :=
  (if strEndsWith lowerPath ".ts" || strEndsWith lowerPath ".tsx" then 0.1 else 0) +
  (if strEndsWith lowerPath ".js" || strEndsWith lowerPath ".jsx" then 0.08 else 0) +
  (if strContains lowerPath "/api/" then 0.15 else 0) +
  (if strContains lowerPath "/components/" then 0.1 else 0) +
  (if strContains lowerPath "/pages/" || strContains lowerPath "/app/" then 0.1 else 0) +
  (if strContains lowerPath "/lib/" || strContains lowerPath "/utils/" then 0.1 else 0)

/-- Embedding of `calculateRelevanceScore` of `llamaindex.ts`, in source order: current
task, the first 5 other tasks, project detail, evidence, then the path
bonuses, clamped into `[0, 1]`. -/
def calculateRelevanceScore (filePath fileContent currentTask : String)
    (allTasks : List String) (projectDetail evidence : String) : ℚ :=
  let lowerPath := filePath.toLower
  let lowerContent := fileContent.toLower
  let score := calculateWordMatchScore lowerPath lowerContent currentTask 0.2 0.05
  let otherTasks := allTasks.filter (fun t => t ≠ currentTask)
  let score := (otherTasks.take 5).foldl
    (fun acc t => acc + calculateWordMatchScore lowerPath lowerContent t 0.1 0.03) score
  let score := score + calculateWordMatchScore lowerPath lowerContent projectDetail 0.05 0.02
  let score := score + calculateWordMatchScore lowerPath lowerContent evidence 0.4 0.1
  let score := score + pathBonus lowerPath
  min (max score 0) 1

/-! ### Spec-shaped definitions, for the refinement comparisons

The following definitions follow the wording of the specification rather
than the source; each is compared against the source-shaped definition
above. -/

/-- The per-field token score as the specification words it: a plain sum
over the qualifying tokens of the field. -/
def specFieldScore (lowerPath lowerContent : String) (text : String)
    (pathWeight contentWeight : ℚ) : ℚ :=
  ((tokensOf text).map
    (fun word =>
      (if strContains lowerPath ⟨word⟩ then pathWeight else 0) +
        contentWeight * ((min (countOcc word lowerContent.toList) 10 : Nat) : ℚ))).sum

/-- Modelled from the spec: the relevance score as the claim words it —
`clamp(sum, 0, 1)` where the sum adds the evidence field (0.40/0.10), the
current task (0.20/0.05), each of the first 5 other tasks (0.10/0.03), the
project description (0.05/0.02) and the fixed path bonuses. -/
def specRelevanceScore (filePath fileContent currentTask : String)
    (allTasks : List String) (projectDetail evidence : String) : ℚ :=
  let lowerPath := filePath.toLower
  let lowerContent := fileContent.toLower
  let sum :=
    specFieldScore lowerPath lowerContent evidence (2/5) (1/10) +
    specFieldScore lowerPath lowerContent currentTask (1/5) (1/20) +
    (((allTasks.filter (fun t => t ≠ currentTask)).take 5).map
      (fun t => specFieldScore lowerPath lowerContent t (1/10) (3/100))).sum +
    specFieldScore lowerPath lowerContent projectDetail (1/20) (1/50) +
    pathBonus lowerPath
  max (min sum 1) 0

/-- First top-level `{...}` span by greedy brace matching (the spec's step 3
of the extraction chain; the repository's variant of this step matches
from the first `{` to the last `}`). -/
def braceSpan (text : String) : Option String :=
  let cs := text.toList
  match (List.range cs.length).filter (fun i => cs.getD i ' ' = '\x7b') with
  | [] => none
  | iOpen :: _ =>
    match ((List.range cs.length).filter (fun i => cs.getD i ' ' = '\x7d')).getLast? with
    | none => none
    | some iClose =>
      if iOpen ≤ iClose then some ⟨(cs.take (iClose + 1)).drop iOpen⟩ else none

/-- Modelled from the spec: the light repair of step 4 — single quotes
normalized to double quotes and trailing commas before `}`/`]` stripped. -/
def repairJson (s : String) : String :=
  let rec fix : List Char → List Char
    | [] => []
    | c :: t =>
      if c = '\x27' then '"' :: fix t
      else if c = ',' then
        match t.dropWhile Char.isWhitespace with
        | '\x7d' :: _ => fix t
        | ']' :: _ => fix t
        | _ => c :: fix t
      else c :: fix t
  ⟨fix s.toList⟩

/-- Modelled from the spec: the four-step extraction chain the specification
describes for the Response Extractor — whole text, fenced block, greedy
brace span, then the repaired brace span — stopping at the first success. -/
def specExtractChain (jp : JsonParser) (text : String) : Option RawContent :=
  match jp text with
  | some v => some v
  | none =>
    match (fencedBlock text).bind jp with
    | some v => some v
    | none =>
      match (braceSpan text).bind jp with
      | some v => some v
      | none => (braceSpan text).bind (fun s => jp (repairJson s))

/-- The per-attempt endpoint the claim describes: the incoming client on the
first attempt; from the first retry on, the next configured endpoint while
an untried one remains (never leaving the incoming client when fewer than
two endpoints are configured). -/
def specAttemptUrl (urls : List String) (client : String) (k : Nat) : String :=
  if k = 0 ∨ urls.length < 2 then client
  else urls.getD (min k (urls.length - 1)) client

/-- Modelled from the spec: the retry trace the claim describes — attempts
with a 2-second wait between consecutive ones, stopping at the first
success or after `remaining` attempts. -/
def specTrace (urls : List String) (client : String)
    (oracle : Nat → Except String String) : Nat → Nat → List REvent
  | 0, _ => []
  | remaining + 1, k =>
    .attempt k (specAttemptUrl urls client k) ::
      match oracle k with
      | .ok _ => []
      | .error _ =>
        if remaining = 0 then []
        else .sleep 2000 :: specTrace urls client oracle remaining (k + 1)

/-! ### Derived notions and concrete capability instances -/

/-- All files contained in a list of groups, in order. -/
def allFiles : List FileGroup → List ScoredFile
  | [] => []
  | g :: gs => g.files ++ allFiles gs

/-- The budget discipline of a group as the partitioner accounts it: its
tracked serialized size fits the budget, or it is a single file whose own
serialized size exceeds the budget. -/
def WithinBudget (sz : ScoredFile → Nat) (B : Nat) (g : FileGroup) : Prop :=
  g.totalSize ≤ B ∨ ∃ f, g.files = [f] ∧ g.totalSize = sz f ∧ B < sz f

/-- One observable update of the carried `keyInsights` list: unchanged, or
some extracted insights appended and the list trimmed back to its first 5. -/
def InsightStep (a b : List String) : Prop :=
  b = a ∨ ∃ e, b = trim5 (a ++ e)

/-- The context snapshots of a run, chained by `InsightStep` from a start
context. -/
def KiChain : BatchContext → List BatchContext → Prop
  | _, [] => True
  | c, x :: xs => InsightStep c.keyInsights x.keyInsights ∧ KiChain x xs

/-- Whether a recorded call is the reconciliation call. -/
def isReconCall (c : CallRecord) : Bool :=
  c.kind == .reconciliation

/-- Number of Evaluator attempts in a trace. -/
def attemptCount (tr : List REvent) : Nat :=
  tr.countP (fun e => match e with | .attempt _ _ => true | .sleep _ => false)

/-- Value of `JSON.stringify(file).length` for a file object whose path and content
are ASCII without characters needing escapes and whose relevance prints as
one digit: the 37 fixed characters of braces, quotes, colons, commas and
key names, plus the two strings and the digit. -/
def asciiJsonSize : ScoredFile → Nat := fun f => 37 + f.path.length + f.content.length + 1

/-- A size capability standing for files that each serialize to 200000
characters (content of roughly 200 kB); only the sizes steer the
partitioner's control flow, so the contents can stay small here. -/
def kbJsonSize : ScoredFile → Nat := fun _ => 200000

/-- A file whose own serialized size (46) exceeds a budget of 10. -/
def oversizedFile : ScoredFile := ⟨"d/x", "ccccc", 1⟩

/-- Two small files in distinct directories. -/
def fileA : ScoredFile := ⟨"a/f1", "x", 1⟩

/-- Second file, distinct directory. -/
def fileB : ScoredFile := ⟨"b/f2", "y", 1⟩

/-- The JSON.parse instance that never yields a truthy value (raw model text
that is not JSON). -/
def noParse : JsonParser := fun _ => none

/-- A parse-capability instance agreeing with `JSON.parse` on the strings it
is applied to: the object text parses to its open-record view, everything
else exercised fails. -/
def jpSummary : JsonParser := fun s =>
  if s = "raw" then some { summary := some "a sufficiently long fragment" } else none

/-- A parse-capability instance whose parsed verdict carries three usable
checkpoints and a summary with two long fragments, so a single non-final
batch contributes the full 3 + 2 insights. -/
def jpRich : JsonParser := fun s =>
  if s = "raw" then
    some { checkpoints := some
             [⟨"r1", "Completed", "details one"⟩,
              ⟨"r2", "Not completed", "details two"⟩,
              ⟨"r3", "Partially completed", "details three"⟩]
           summary := some "first long enough fragment | second long enough fragment" }
  else none

/-- The text `hello {"a":1}` (no code fence, JSON object embedded mid-text). -/
def braceText : String := "hello \x7b\"a\":1\x7d"

/-- A parse-capability instance agreeing with `JSON.parse` on the two
strings exercised by `braceText`: the full text throws (garbage before the
object), the brace span parses. -/
def jpBrace : JsonParser := fun s =>
  if s = "\x7b\"a\":1\x7d" then some { assessment := some 1 } else none

/-- Concrete request used by the closed run instantiations. -/
def scnParams : CodeEvaluationParams :=
  ⟨"pd", ["t1"], "t1", "ev", "https://example.invalid/r", "rs", [fileA, fileB], none⟩

/-- Production-like environment: not development, key set, no mock flag. -/
def scnEnv : Env := ⟨false, true, false⟩

/-- Call oracle: the first batch call fails on every attempt, later calls
succeed immediately. -/
def failThenOk : Nat → Nat → Except String String :=
  fun c _ => if c = 0 then .error "boom" else .ok "raw"

/-- Call oracle: every call succeeds immediately. -/
def allOk : Nat → Nat → Except String String := fun _ _ => .ok "raw"

/-- Call oracle: both batch calls succeed, the third (reconciliation) call
fails on every attempt. -/
def reconFails : Nat → Nat → Except String String :=
  fun c _ => if c = 2 then .error "rboom" else .ok "raw"

/-- Attempt oracle for a single call that always fails. -/
def alwaysFail : Nat → Except String String := fun _ => .error "boom"

/-- Attempt oracle for a single call succeeding at once. -/
def okNow : Nat → Except String String := fun _ => .ok "raw"

/-! ### Generic list lemmas -/

theorem orderedInsertBy_perm (le : α → α → Bool) (a : α) (l : List α) :
    (orderedInsertBy le a l).Perm (a :: l) := by
  induction l with
  | nil => exact List.Perm.refl _
  | cons b t ih =>
    simp only [orderedInsertBy]
    by_cases h : le a b
    · simp only [if_pos h]
      exact List.Perm.refl _
    · simp only [if_neg h]
      exact (ih.cons b).trans (List.Perm.swap a b t)

theorem insertionSortBy_perm (le : α → α → Bool) (l : List α) :
    (insertionSortBy le l).Perm l := by
  induction l with
  | nil => exact List.Perm.refl _
  | cons a t ih =>
    exact (orderedInsertBy_perm le a (insertionSortBy le t)).trans (ih.cons a)

theorem perm_append_swap (x y z : List α) : (x ++ (y ++ z)).Perm (y ++ (x ++ z)) := by
  have h1 : x ++ (y ++ z) = (x ++ y) ++ z := (List.append_assoc x y z).symm
  have h2 : ((x ++ y) ++ z).Perm ((y ++ x) ++ z) := List.perm_append_comm.append_right z
  have h3 : (y ++ x) ++ z = y ++ (x ++ z) := List.append_assoc y x z
  rw [h1, ← h3]
  exact h2

theorem allFiles_append (a b : List FileGroup) :
    allFiles (a ++ b) = allFiles a ++ allFiles b := by
  induction a with
  | nil => rfl
  | cons g t ih => simp [allFiles, ih]

theorem allFiles_perm {l1 l2 : List FileGroup} (h : l1.Perm l2) :
    (allFiles l1).Perm (allFiles l2) := by
  induction h with
  | nil => exact List.Perm.refl _
  | cons x _ ih => exact ih.append_left x.files
  | swap x y l => exact perm_append_swap y.files x.files (allFiles l)
  | trans _ _ ih1 ih2 => exact ih1.trans ih2

theorem append_right_swap_perm (a c fs : List α) :
    ((a ++ fs) ++ c).Perm ((a ++ c) ++ fs) := by
  have h2 : (a ++ (fs ++ c)).Perm (a ++ (c ++ fs)) :=
    List.Perm.append_left a List.perm_append_comm
  rw [List.append_assoc a fs c, ← List.append_assoc a c fs] at *
  exact h2

theorem allFiles_updateAt {f : FileGroup → FileGroup} {fs : List ScoredFile}
    (hf : ∀ g, (f g).files = g.files ++ fs) :
    ∀ (i : Nat) (gs : List FileGroup), i < gs.length →
      (allFiles (updateAt i f gs)).Perm (allFiles gs ++ fs) := by
  intro i
  induction i with
  | zero =>
    intro gs hlen
    match gs with
    | g :: t =>
      simp only [updateAt, allFiles, hf]
      exact append_right_swap_perm g.files (allFiles t) fs
  | succ n ih =>
    intro gs hlen
    match gs with
    | g :: t =>
      simp only [updateAt, allFiles]
      have ht : n < t.length := by
        simpa using Nat.lt_of_succ_lt_succ hlen
      have h1 : (g.files ++ allFiles (updateAt n f t)).Perm (g.files ++ (allFiles t ++ fs)) :=
        List.Perm.append_left g.files (ih t ht)
      rw [← List.append_assoc] at h1
      exact h1

/-! ### Placement phase: the groups hold exactly the placed files -/

theorem bestGroupAux_valid (B dirSize : Nat) (dirPath : String) :
    ∀ (gs : List FileGroup) (i : Nat) (bs : Int) (bi bsz : Nat),
      (0 ≤ bs → bi < i) →
      0 ≤ (bestGroupAux B dirSize dirPath gs i bs bi bsz).1 →
      (bestGroupAux B dirSize dirPath gs i bs bi bsz).2 < i + gs.length := by
  intro gs
  induction gs with
  | nil =>
    intro i bs bi bsz hinv hle
    simpa using hinv hle
  | cons g t ih =>
    intro i bs bi bsz hinv hle
    simp only [bestGroupAux] at hle ⊢
    by_cases hcap : B < g.totalSize + dirSize
    · rw [if_pos hcap] at hle ⊢
      have := ih (i + 1) bs bi bsz (fun h => Nat.lt_succ_of_lt (hinv h)) hle
      simp only [List.length_cons]
      omega
    · rw [if_neg hcap] at hle ⊢
      by_cases hupd : bs < affinity g dirPath ∨ (affinity g dirPath = bs ∧ g.totalSize < bsz)
      · rw [if_pos hupd] at hle ⊢
        have := ih (i + 1) (affinity g dirPath) i g.totalSize (fun _ => Nat.lt_succ_self i) hle
        simp only [List.length_cons]
        omega
      · rw [if_neg hupd] at hle ⊢
        have := ih (i + 1) bs bi bsz (fun h => Nat.lt_succ_of_lt (hinv h)) hle
        simp only [List.length_cons]
        omega

theorem allFiles_placeDirWhole (B : Nat) (dirPath : String) (dirFiles : List ScoredFile)
    (dirSize : Nat) (gs : List FileGroup) :
    (allFiles (placeDirWhole B dirPath dirFiles dirSize gs)).Perm (allFiles gs ++ dirFiles) := by
  simp only [placeDirWhole]
  by_cases h : (bestGroupAux B dirSize dirPath gs 0 (-1) 0
      ((gs.headD ⟨[], 0, []⟩).totalSize)).1 < 0 ∨
      B < (gs.getD (bestGroupAux B dirSize dirPath gs 0 (-1) 0
        ((gs.headD ⟨[], 0, []⟩).totalSize)).2 ⟨[], 0, []⟩).totalSize + dirSize
  · rw [if_pos h]
    rw [allFiles_append]
    simp [allFiles]
  · rw [if_neg h]
    have hbs : 0 ≤ (bestGroupAux B dirSize dirPath gs 0 (-1) 0
        ((gs.headD ⟨[], 0, []⟩).totalSize)).1 := by
      by_contra hq
      exact h (Or.inl (by omega))
    have hvalid := bestGroupAux_valid B dirSize dirPath gs 0 (-1) 0
      ((gs.headD ⟨[], 0, []⟩).totalSize) (by intro hc; exact absurd hc (by norm_num)) hbs
    exact allFiles_updateAt (fun g => rfl) _ gs (by simpa using hvalid)

theorem allFiles_placeFileFF (B : Nat) (sz : ScoredFile → Nat) (dirPath : String)
    (f : ScoredFile) (gs : List FileGroup) :
    (allFiles (placeFileFF B sz dirPath f gs)).Perm (allFiles gs ++ [f]) := by
  induction gs with
  | nil => simp [placeFileFF, allFiles]
  | cons g t ih =>
    simp only [placeFileFF]
    by_cases h : g.totalSize + sz f ≤ B
    · rw [if_pos h]
      simp only [allFiles]
      exact append_right_swap_perm g.files (allFiles t) [f]
    · rw [if_neg h]
      simp only [allFiles]
      have h1 := List.Perm.append_left g.files ih
      rw [← List.append_assoc] at h1
      exact h1

theorem allFiles_placeFileFF_fold (B : Nat) (sz : ScoredFile → Nat) (dirPath : String) :
    ∀ (l : List ScoredFile) (gs : List FileGroup),
      (allFiles (l.foldl (fun acc f => placeFileFF B sz dirPath f acc) gs)).Perm
        (allFiles gs ++ l) := by
  intro l
  induction l with
  | nil => intro gs; simp
  | cons f t ih =>
    intro gs
    simp only [List.foldl_cons]
    have h1 := ih (placeFileFF B sz dirPath f gs)
    have h2 : (allFiles (placeFileFF B sz dirPath f gs) ++ t).Perm ((allFiles gs ++ [f]) ++ t) :=
      (allFiles_placeFileFF B sz dirPath f gs).append_right t
    have h3 : (allFiles gs ++ [f]) ++ t = allFiles gs ++ (f :: t) := by simp
    exact h1.trans (h3 ▸ h2)

theorem allFiles_placeDir (sz : ScoredFile → Nat) (B : Nat) (gs : List FileGroup)
    (d : String) (dirFiles : List ScoredFile) :
    (allFiles (placeDir sz B gs d dirFiles)).Perm (allFiles gs ++ dirFiles) := by
  simp only [placeDir]
  by_cases h : 10 * listJsonSize sz dirFiles ≤ 8 * B
  · rw [if_pos h]
    exact allFiles_placeDirWhole B d dirFiles (listJsonSize sz dirFiles) gs
  · rw [if_neg h]
    have h1 := allFiles_placeFileFF_fold B sz d
      (insertionSortBy (fun a b => decide (b.relevance ≤ a.relevance)) dirFiles) gs
    exact h1.trans (List.Perm.append_left (allFiles gs)
      (insertionSortBy_perm (fun a b => decide (b.relevance ≤ a.relevance)) dirFiles))

theorem allFiles_placeDir_fold (sz : ScoredFile → Nat) (B : Nat) (files : List ScoredFile) :
    ∀ (ds : List String) (gs : List FileGroup),
      (allFiles (ds.foldl (fun acc d => placeDir sz B acc d (dirFilesOf files d)) gs)).Perm
        (allFiles gs ++ (ds.map (dirFilesOf files)).flatten) := by
  intro ds
  induction ds with
  | nil => intro gs; simp
  | cons d t ih =>
    intro gs
    simp only [List.foldl_cons, List.map_cons, List.flatten_cons]
    have h1 := ih (placeDir sz B gs d (dirFilesOf files d))
    have h2 : (allFiles (placeDir sz B gs d (dirFilesOf files d)) ++
        (t.map (dirFilesOf files)).flatten).Perm
        ((allFiles gs ++ dirFilesOf files d) ++ (t.map (dirFilesOf files)).flatten) :=
      (allFiles_placeDir sz B gs d (dirFilesOf files d)).append_right _
    have h3 : (allFiles gs ++ dirFilesOf files d) ++ (t.map (dirFilesOf files)).flatten =
        allFiles gs ++ (dirFilesOf files d ++ (t.map (dirFilesOf files)).flatten) := by
      simp
    exact h1.trans (h3 ▸ h2)

/-! ### Compaction preserves the file multiset -/

theorem allFiles_absorb (B : Nat) :
    ∀ (l : List FileGroup) (cur : FileGroup),
      ((absorb B cur l).1.files ++ allFiles (absorb B cur l).2).Perm
        (cur.files ++ allFiles l) := by
  intro l
  induction l with
  | nil => intro cur; simp [absorb, allFiles]
  | cons g t ih =>
    intro cur
    simp only [absorb]
    by_cases h : cur.totalSize + g.totalSize ≤ B
    · rw [if_pos h]
      have h1 := ih (mergeGroups cur g)
      have h2 : (mergeGroups cur g).files ++ allFiles t =
          cur.files ++ (g.files ++ allFiles t) := by
        simp [mergeGroups]
      rw [h2] at h1
      simpa [allFiles] using h1
    · rw [if_neg h]
      simp only [allFiles]
      have h1 : ((absorb B cur t).1.files ++ (g.files ++ allFiles (absorb B cur t).2)).Perm
          ((absorb B cur t).1.files ++ (allFiles (absorb B cur t).2 ++ g.files)) :=
        List.Perm.append_left _ List.perm_append_comm
      have h2 : ((absorb B cur t).1.files ++ (allFiles (absorb B cur t).2 ++ g.files)).Perm
          ((cur.files ++ allFiles t) ++ g.files) := by
        have := (ih cur).append_right g.files
        rw [List.append_assoc] at this
        exact this
      have h3 : ((cur.files ++ allFiles t) ++ g.files).Perm
          (cur.files ++ (g.files ++ allFiles t)) := by
        rw [List.append_assoc]
        exact List.Perm.append_left cur.files List.perm_append_comm
      exact (h1.trans h2).trans h3

theorem allFiles_compactAux (B : Nat) :
    ∀ (fuel : Nat) (l : List FileGroup),
      (allFiles (compactAux B fuel l)).Perm (allFiles l) := by
  intro fuel
  induction fuel with
  | zero =>
    intro l
    match l with
    | [] => exact List.Perm.refl _
    | g :: t => exact List.Perm.refl _
  | succ n ih =>
    intro l
    match l with
    | [] => exact List.Perm.refl _
    | g :: t =>
      simp only [compactAux]
      by_cases h : 2 * g.totalSize < B
      · rw [if_pos h]
        simp only [allFiles]
        have h1 : ((absorb B g t).1.files ++ allFiles (compactAux B n (absorb B g t).2)).Perm
            ((absorb B g t).1.files ++ allFiles (absorb B g t).2) :=
          List.Perm.append_left _ (ih _)
        exact h1.trans (allFiles_absorb B t g)
      · rw [if_neg h]
        simp only [allFiles]
        exact List.Perm.append_left g.files (ih t)

/-! ### The directory grouping covers the input exactly -/

theorem filter_key_flatten_perm {α κ : Type _} [DecidableEq κ] (key : α → κ) :
    ∀ (ks : List κ), ks.Nodup → ∀ (l : List α), (∀ a ∈ l, key a ∈ ks) →
      ((ks.map (fun k => l.filter (fun a => key a == k))).flatten).Perm l := by
  intro ks
  induction ks with
  | nil =>
    intro _ l hl
    match l with
    | [] => exact List.Perm.refl _
    | a :: t => exact absurd (hl a (by simp)) (by simp)
  | cons k t ih =>
    intro hnd l hl
    simp only [List.map_cons, List.flatten_cons]
    have hknotin : k ∉ t := (List.nodup_cons.mp hnd).1
    have hndt : t.Nodup := (List.nodup_cons.mp hnd).2
    have hmapeq : t.map (fun k' => l.filter (fun a => key a == k')) =
        t.map (fun k' => (l.filter (fun a => !(key a == k))).filter (fun a => key a == k')) := by
      apply List.map_congr_left
      intro k' hk'
      have hne : k' ≠ k := fun h => hknotin (h ▸ hk')
      rw [List.filter_filter]
      apply List.filter_congr
      intro a _
      by_cases hak : key a = k'
      · simp [hak, hne]
      · simp [hak]
    rw [hmapeq]
    have hsub : ∀ a ∈ l.filter (fun a => !(key a == k)), key a ∈ t := by
      intro a ha
      have h1 := List.of_mem_filter ha
      have h2 := List.mem_of_mem_filter ha
      have h3 := hl a h2
      simp only [beq_iff_eq, Bool.not_eq_true'] at h1
      rcases List.mem_cons.mp h3 with h | h
      · exact absurd h (by simpa using h1)
      · exact h
    have hih := ih hndt (l.filter (fun a => !(key a == k))) hsub
    have h4 : (l.filter (fun a => key a == k) ++
        (t.map (fun k' => (l.filter (fun a => !(key a == k))).filter
          (fun a => key a == k'))).flatten).Perm
        (l.filter (fun a => key a == k) ++ l.filter (fun a => !(key a == k))) :=
      List.Perm.append_left _ hih
    exact h4.trans (List.filter_append_perm _ l)

theorem dirKeys_aux_nodup (files : List ScoredFile) :
    ∀ (acc : List String), acc.Nodup →
      (files.foldl (fun acc f => if dirOf f.path ∈ acc then acc else acc ++ [dirOf f.path])
        acc).Nodup := by
  induction files with
  | nil => intro acc h; exact h
  | cons f t ih =>
    intro acc h
    simp only [List.foldl_cons]
    by_cases hmem : dirOf f.path ∈ acc
    · rw [if_pos hmem]; exact ih acc h
    · rw [if_neg hmem]
      refine ih _ ?_
      simp [List.nodup_append, h, hmem]

theorem dirKeys_aux_mono (files : List ScoredFile) :
    ∀ (acc : List String) (d : String), d ∈ acc →
      d ∈ files.foldl (fun acc f => if dirOf f.path ∈ acc then acc else acc ++ [dirOf f.path])
        acc := by
  induction files with
  | nil => intro acc d h; exact h
  | cons f t ih =>
    intro acc d h
    simp only [List.foldl_cons]
    by_cases hmem : dirOf f.path ∈ acc
    · rw [if_pos hmem]; exact ih acc d h
    · rw [if_neg hmem]
      exact ih _ d (List.mem_append_left _ h)

theorem mem_dirKeys_of_mem (files : List ScoredFile) :
    ∀ (acc : List String) (f : ScoredFile), f ∈ files →
      dirOf f.path ∈
        files.foldl (fun acc f => if dirOf f.path ∈ acc then acc else acc ++ [dirOf f.path])
          acc := by
  induction files with
  | nil => intro _ _ h; exact absurd h (by simp)
  | cons g t ih =>
    intro acc f hf
    simp only [List.foldl_cons]
    rcases List.mem_cons.mp hf with h | h
    · subst h
      by_cases hmem : dirOf f.path ∈ acc
      · rw [if_pos hmem]; exact dirKeys_aux_mono t acc _ hmem
      · rw [if_neg hmem]
        exact dirKeys_aux_mono t _ _ (List.mem_append_right _ (by simp))
    · by_cases hmem : dirOf g.path ∈ acc
      · rw [if_pos hmem]; exact ih acc f h
      · rw [if_neg hmem]; exact ih _ f h

theorem dirKeys_nodup (files : List ScoredFile) : (dirKeys files).Nodup :=
  dirKeys_aux_nodup files [] List.nodup_nil

theorem dirOf_mem_dirKeys {files : List ScoredFile} {f : ScoredFile} (h : f ∈ files) :
    dirOf f.path ∈ dirKeys files :=
  mem_dirKeys_of_mem files [] f h

theorem dirGroups_flatten_perm (files : List ScoredFile) :
    (((dirKeys files).map (dirFilesOf files)).flatten).Perm files := by
  have h := filter_key_flatten_perm (fun f : ScoredFile => dirOf f.path) (dirKeys files)
    (dirKeys_nodup files) files (fun a ha => dirOf_mem_dirKeys ha)
  simpa [dirFilesOf] using h

theorem allFiles_eq_flatten (gs : List FileGroup) :
    allFiles gs = (gs.map FileGroup.files).flatten := by
  induction gs with
  | nil => rfl
  | cons g t ih => simp [allFiles, ih]

theorem allFiles_smartGroups (sz : ScoredFile → Nat) (files : List ScoredFile) (B : Nat) :
    (allFiles (smartGroups sz files B)).Perm files := by
  have h1 := allFiles_placeDir_fold sz B files (dirKeys files) [⟨[], 0, []⟩]
  have h2 : allFiles [(⟨[], 0, []⟩ : FileGroup)] = [] := by simp [allFiles]
  rw [h2, List.nil_append] at h1
  exact (h1.trans (dirGroups_flatten_perm files))

/-- C1: for every input list of scored files and every byte budget, the
batches returned by `createSmartFileBatches` partition the input exactly —
the concatenation of the batches is a permutation of the input list, so
every file appears in exactly one batch, without omission or duplication,
through directory placement, file-by-file splitting and compaction alike. -/
theorem claim_C1_partition_exact (sz : ScoredFile → Nat) (files : List ScoredFile) (B : Nat) :
    ((createSmartFileBatches sz files B).flatten).Perm files := by
  unfold createSmartFileBatches createSmartFileBatchesSized
  by_cases h : listJsonSize sz files ≤ B
  · rw [if_pos h]
    simp
  · rw [if_neg h]
    rw [← allFiles_eq_flatten]
    have h1 := allFiles_compactAux B
      (insertionSortBy (fun a b => decide (a.totalSize ≤ b.totalSize)) (smartGroups sz files B)).length
      (insertionSortBy (fun a b => decide (a.totalSize ≤ b.totalSize)) (smartGroups sz files B))
    have h2 := allFiles_perm
      (insertionSortBy_perm (fun a b => decide (a.totalSize ≤ b.totalSize)) (smartGroups sz files B))
    exact (h1.trans h2).trans (allFiles_smartGroups sz files B)

/-! ### Budget discipline of the partitioner -/

theorem mem_updateAt (d : α) :
    ∀ (i : Nat) (f : α → α) (gs : List α) (y : α), y ∈ updateAt i f gs →
      y ∈ gs ∨ (i < gs.length ∧ y = f (gs.getD i d)) := by
  intro i
  induction i with
  | zero =>
    intro f gs y hy
    match gs with
    | [] => exact absurd hy (by simp [updateAt])
    | x :: xs =>
      simp only [updateAt] at hy
      rcases List.mem_cons.mp hy with h | h
      · right
        exact ⟨by simp, by simpa using h⟩
      · left
        exact List.mem_cons_of_mem x h
  | succ n ih =>
    intro f gs y hy
    match gs with
    | [] => exact absurd hy (by simp [updateAt])
    | x :: xs =>
      simp only [updateAt] at hy
      rcases List.mem_cons.mp hy with h | h
      · left
        exact h ▸ List.mem_cons_self x xs
      · rcases ih f xs y h with h1 | h1
        · left
          exact List.mem_cons_of_mem x h1
        · right
          refine ⟨by simpa using Nat.succ_lt_succ h1.1, ?_⟩
          simpa using h1.2

theorem withinBudget_placeDirWhole {sz : ScoredFile → Nat} {B : Nat} {dirPath : String}
    {dirFiles : List ScoredFile} {dirSize : Nat} {gs : List FileGroup}
    (hsz : dirSize ≤ B)
    (hgs : ∀ g ∈ gs, WithinBudget sz B g) :
    ∀ g ∈ placeDirWhole B dirPath dirFiles dirSize gs, WithinBudget sz B g := by
  intro g hg
  simp only [placeDirWhole] at hg
  by_cases h : (bestGroupAux B dirSize dirPath gs 0 (-1) 0
      ((gs.headD ⟨[], 0, []⟩).totalSize)).1 < 0 ∨
      B < (gs.getD (bestGroupAux B dirSize dirPath gs 0 (-1) 0
        ((gs.headD ⟨[], 0, []⟩).totalSize)).2 ⟨[], 0, []⟩).totalSize + dirSize
  · rw [if_pos h] at hg
    rcases List.mem_append.mp hg with h1 | h1
    · exact hgs g h1
    · have : g = ⟨dirFiles, dirSize, [(dirPath, 1)]⟩ := by simpa using h1
      subst this
      exact Or.inl hsz
  · rw [if_neg h] at hg
    push_neg at h
    rcases mem_updateAt ⟨[], 0, []⟩ _ _ gs g hg with h1 | h1
    · exact hgs g h1
    · rcases h1 with ⟨_, hgeq⟩
      subst hgeq
      exact Or.inl (by simpa using h.2)

theorem withinBudget_placeFileFF {sz : ScoredFile → Nat} {B : Nat} {dirPath : String}
    {f : ScoredFile} :
    ∀ {gs : List FileGroup}, (∀ g ∈ gs, WithinBudget sz B g) →
      ∀ g ∈ placeFileFF B sz dirPath f gs, WithinBudget sz B g := by
  intro gs
  induction gs with
  | nil =>
    intro _ g hg
    have : g = ⟨[f], sz f, [(dirPath, 1)]⟩ := by simpa [placeFileFF] using hg
    subst this
    by_cases h : sz f ≤ B
    · exact Or.inl h
    · exact Or.inr ⟨f, rfl, rfl, by omega⟩
  | cons x xs ih =>
    intro hgs g hg
    simp only [placeFileFF] at hg
    by_cases h : x.totalSize + sz f ≤ B
    · rw [if_pos h] at hg
      rcases List.mem_cons.mp hg with h1 | h1
      · subst h1
        exact Or.inl h
      · exact hgs g (List.mem_cons_of_mem x h1)
    · rw [if_neg h] at hg
      rcases List.mem_cons.mp hg with h1 | h1
      · exact h1 ▸ hgs x (List.mem_cons_self x xs)
      · exact ih (fun g hgg => hgs g (List.mem_cons_of_mem x hgg)) g h1

theorem withinBudget_placeFileFF_fold {sz : ScoredFile → Nat} {B : Nat} {dirPath : String} :
    ∀ (l : List ScoredFile) (gs : List FileGroup), (∀ g ∈ gs, WithinBudget sz B g) →
      ∀ g ∈ l.foldl (fun acc f => placeFileFF B sz dirPath f acc) gs, WithinBudget sz B g := by
  intro l
  induction l with
  | nil => intro gs h; exact h
  | cons f t ih =>
    intro gs h
    simp only [List.foldl_cons]
    exact ih _ (withinBudget_placeFileFF h)

theorem withinBudget_placeDir {sz : ScoredFile → Nat} {B : Nat} {gs : List FileGroup}
    {d : String} {dirFiles : List ScoredFile}
    (hgs : ∀ g ∈ gs, WithinBudget sz B g) :
    ∀ g ∈ placeDir sz B gs d dirFiles, WithinBudget sz B g := by
  simp only [placeDir]
  by_cases h : 10 * listJsonSize sz dirFiles ≤ 8 * B
  · rw [if_pos h]
    exact withinBudget_placeDirWhole (by omega) hgs
  · rw [if_neg h]
    exact withinBudget_placeFileFF_fold _ gs hgs

theorem withinBudget_smartGroups (sz : ScoredFile → Nat) (files : List ScoredFile) (B : Nat) :
    ∀ g ∈ smartGroups sz files B, WithinBudget sz B g := by
  unfold smartGroups
  have : ∀ (ds : List String) (gs : List FileGroup), (∀ g ∈ gs, WithinBudget sz B g) →
      ∀ g ∈ ds.foldl (fun acc d => placeDir sz B acc d (dirFilesOf files d)) gs,
        WithinBudget sz B g := by
    intro ds
    induction ds with
    | nil => intro gs h; exact h
    | cons d t ih =>
      intro gs h
      simp only [List.foldl_cons]
      exact ih _ (withinBudget_placeDir h)
  refine this (dirKeys files) [⟨[], 0, []⟩] ?_
  intro g hg
  have : g = ⟨[], 0, []⟩ := by simpa using hg
  subst this
  exact Or.inl (Nat.zero_le B)

theorem withinBudget_absorb {sz : ScoredFile → Nat} {B : Nat} :
    ∀ (l : List FileGroup) (cur : FileGroup), WithinBudget sz B cur →
      (∀ g ∈ l, WithinBudget sz B g) →
      WithinBudget sz B (absorb B cur l).1 ∧
        ∀ g ∈ (absorb B cur l).2, WithinBudget sz B g := by
  intro l
  induction l with
  | nil =>
    intro cur hcur _
    exact ⟨hcur, by simp [absorb]⟩
  | cons g t ih =>
    intro cur hcur hl
    simp only [absorb]
    by_cases h : cur.totalSize + g.totalSize ≤ B
    · rw [if_pos h]
      exact ih (mergeGroups cur g) (Or.inl h)
        (fun x hx => hl x (List.mem_cons_of_mem g hx))
    · rw [if_neg h]
      have := ih cur hcur (fun x hx => hl x (List.mem_cons_of_mem g hx))
      refine ⟨this.1, ?_⟩
      intro x hx
      rcases List.mem_cons.mp hx with h1 | h1
      · exact h1 ▸ hl g (List.mem_cons_self g t)
      · exact this.2 x h1

theorem withinBudget_compactAux {sz : ScoredFile → Nat} {B : Nat} :
    ∀ (fuel : Nat) (l : List FileGroup), (∀ g ∈ l, WithinBudget sz B g) →
      ∀ g ∈ compactAux B fuel l, WithinBudget sz B g := by
  intro fuel
  induction fuel with
  | zero =>
    intro l h
    match l with
    | [] => simp [compactAux]
    | g :: t => simpa [compactAux] using h
  | succ n ih =>
    intro l h
    match l with
    | [] => simp [compactAux]
    | g :: t =>
      simp only [compactAux]
      by_cases hc : 2 * g.totalSize < B
      · rw [if_pos hc]
        have habs := withinBudget_absorb t g (h g (List.mem_cons_self g t))
          (fun x hx => h x (List.mem_cons_of_mem g hx))
        intro x hx
        rcases List.mem_cons.mp hx with h1 | h1
        · exact h1 ▸ habs.1
        · exact ih _ habs.2 x h1
      · rw [if_neg hc]
        intro x hx
        rcases List.mem_cons.mp hx with h1 | h1
        · exact h1 ▸ h g (List.mem_cons_self g t)
        · exact ih _ (fun y hy => h y (List.mem_cons_of_mem g hy)) x h1

/-- C2: every batch of `createSmartFileBatches` respects the byte budget as
the partitioner accounts it: the batches are the file lists of the sized
groups, and every final group either has tracked serialized size at most
the budget or is a single file whose own serialized size exceeds it —
through directory placement, first-fit splitting and compaction alike. -/
theorem claim_C2_budget_respect (sz : ScoredFile → Nat) (files : List ScoredFile) (B : Nat) :
    createSmartFileBatches sz files B =
      (createSmartFileBatchesSized sz files B).map FileGroup.files ∧
    ∀ g ∈ createSmartFileBatchesSized sz files B, WithinBudget sz B g := by
  refine ⟨rfl, ?_⟩
  unfold createSmartFileBatchesSized
  by_cases h : listJsonSize sz files ≤ B
  · rw [if_pos h]
    intro g hg
    have : g = ⟨files, listJsonSize sz files, []⟩ := by simpa using hg
    subst this
    exact Or.inl h
  · rw [if_neg h]
    refine withinBudget_compactAux _ _ ?_
    intro g hg
    have hmem : g ∈ smartGroups sz files B :=
      (insertionSortBy_perm (fun a b => decide (a.totalSize ≤ b.totalSize))
        (smartGroups sz files B)).mem_iff.mp hg
    exact withinBudget_smartGroups sz files B g hmem

/-! ### At most one batch can be empty -/

theorem countP_updateAt_le {p : α → Bool} {f : α → α}
    (hf : ∀ x, p (f x) = true → p x = true) :
    ∀ (i : Nat) (l : List α), (updateAt i f l).countP p ≤ l.countP p := by
  intro i
  induction i with
  | zero =>
    intro l
    match l with
    | [] => exact Nat.le_refl _
    | x :: xs =>
      simp only [updateAt, List.countP_cons]
      have : (if p (f x) = true then 1 else 0) ≤ (if p x = true then 1 else 0) := by
        by_cases h : p (f x) = true
        · rw [if_pos h, if_pos (hf x h)]
        · simp [h]
      omega
  | succ n ih =>
    intro l
    match l with
    | [] => exact Nat.le_refl _
    | x :: xs =>
      simp only [updateAt, List.countP_cons]
      have := ih xs
      omega

theorem emptyCount_placeDirWhole {B : Nat} {dirPath : String} {dirFiles : List ScoredFile}
    {dirSize : Nat} {gs : List FileGroup} (hne : dirFiles ≠ []) :
    (placeDirWhole B dirPath dirFiles dirSize gs).countP (fun g => g.files.isEmpty) ≤
      gs.countP (fun g => g.files.isEmpty) := by
  simp only [placeDirWhole]
  by_cases h : (bestGroupAux B dirSize dirPath gs 0 (-1) 0
      ((gs.headD ⟨[], 0, []⟩).totalSize)).1 < 0 ∨
      B < (gs.getD (bestGroupAux B dirSize dirPath gs 0 (-1) 0
        ((gs.headD ⟨[], 0, []⟩).totalSize)).2 ⟨[], 0, []⟩).totalSize + dirSize
  · rw [if_pos h]
    rw [List.countP_append]
    have : List.countP (fun g => g.files.isEmpty) [(⟨dirFiles, dirSize, [(dirPath, 1)]⟩ : FileGroup)] = 0 := by
      simp [List.countP_cons, List.isEmpty_iff, hne]
    omega
  · rw [if_neg h]
    refine countP_updateAt_le ?_ _ gs
    intro g hg
    simp only [List.isEmpty_iff, List.append_eq_nil] at hg ⊢
    exact hg.1

theorem emptyCount_placeFileFF (B : Nat) (sz : ScoredFile → Nat) (dirPath : String)
    (f : ScoredFile) :
    ∀ (gs : List FileGroup),
      (placeFileFF B sz dirPath f gs).countP (fun g => g.files.isEmpty) ≤
        gs.countP (fun g => g.files.isEmpty) := by
  intro gs
  induction gs with
  | nil => simp [placeFileFF, List.countP_cons]
  | cons x xs ih =>
    simp only [placeFileFF]
    by_cases h : x.totalSize + sz f ≤ B
    · rw [if_pos h]
      simp only [List.countP_cons]
      have h0 : (((x.files ++ [f]).isEmpty : Bool) = true) = False := by
        simp
      simp only [h0, if_false]
      omega
    · rw [if_neg h]
      simp only [List.countP_cons]
      omega

theorem emptyCount_placeFileFF_fold (B : Nat) (sz : ScoredFile → Nat) (dirPath : String) :
    ∀ (l : List ScoredFile) (gs : List FileGroup),
      (l.foldl (fun acc f => placeFileFF B sz dirPath f acc) gs).countP
        (fun g => g.files.isEmpty) ≤ gs.countP (fun g => g.files.isEmpty) := by
  intro l
  induction l with
  | nil => intro gs; exact Nat.le_refl _
  | cons f t ih =>
    intro gs
    simp only [List.foldl_cons]
    exact Nat.le_trans (ih _) (emptyCount_placeFileFF B sz dirPath f gs)

theorem emptyCount_placeDir {sz : ScoredFile → Nat} {B : Nat} {gs : List FileGroup}
    {d : String} {dirFiles : List ScoredFile} (hne : dirFiles ≠ []) :
    (placeDir sz B gs d dirFiles).countP (fun g => g.files.isEmpty) ≤
      gs.countP (fun g => g.files.isEmpty) := by
  simp only [placeDir]
  by_cases h : 10 * listJsonSize sz dirFiles ≤ 8 * B
  · rw [if_pos h]
    exact emptyCount_placeDirWhole hne
  · rw [if_neg h]
    exact emptyCount_placeFileFF_fold B sz d _ gs

theorem mem_dirKeys_exists (files : List ScoredFile) :
    ∀ (acc : List String) (d : String),
      d ∈ files.foldl (fun acc f => if dirOf f.path ∈ acc then acc
        else acc ++ [dirOf f.path]) acc →
      d ∈ acc ∨ ∃ f ∈ files, dirOf f.path = d := by
  induction files with
  | nil =>
    intro acc d h
    exact Or.inl h
  | cons g t ih =>
    intro acc d h
    simp only [List.foldl_cons] at h
    by_cases hmem : dirOf g.path ∈ acc
    · rw [if_pos hmem] at h
      rcases ih acc d h with h1 | ⟨f, hf, hfd⟩
      · exact Or.inl h1
      · exact Or.inr ⟨f, List.mem_cons_of_mem g hf, hfd⟩
    · rw [if_neg hmem] at h
      rcases ih _ d h with h1 | ⟨f, hf, hfd⟩
      · rcases List.mem_append.mp h1 with h2 | h2
        · exact Or.inl h2
        · have h3 : d = dirOf g.path := by simpa using h2
          exact Or.inr ⟨g, List.mem_cons_self g t, h3.symm⟩
      · exact Or.inr ⟨f, List.mem_cons_of_mem g hf, hfd⟩

theorem dirFilesOf_ne_nil {files : List ScoredFile} {d : String}
    (h : d ∈ dirKeys files) : dirFilesOf files d ≠ [] := by
  rcases mem_dirKeys_exists files [] d h with h1 | ⟨f, hf, hfd⟩
  · exact absurd h1 (by simp)
  · intro hcon
    have : f ∈ dirFilesOf files d := by
      simp only [dirFilesOf, List.mem_filter]
      exact ⟨hf, by simp [hfd]⟩
    rw [hcon] at this
    exact absurd this (by simp)

theorem emptyCount_smartGroups (sz : ScoredFile → Nat) (files : List ScoredFile) (B : Nat) :
    (smartGroups sz files B).countP (fun g => g.files.isEmpty) ≤ 1 := by
  unfold smartGroups
  have main : ∀ (ds : List String), (∀ d ∈ ds, dirFilesOf files d ≠ []) →
      ∀ (gs : List FileGroup),
        (ds.foldl (fun acc d => placeDir sz B acc d (dirFilesOf files d)) gs).countP
          (fun g => g.files.isEmpty) ≤ gs.countP (fun g => g.files.isEmpty) := by
    intro ds
    induction ds with
    | nil => intro _ gs; exact Nat.le_refl _
    | cons d t ih =>
      intro hds gs
      simp only [List.foldl_cons]
      refine Nat.le_trans (ih (fun x hx => hds x (List.mem_cons_of_mem d hx)) _) ?_
      exact emptyCount_placeDir (hds d (List.mem_cons_self d t))
  refine Nat.le_trans (main (dirKeys files) (fun d hd => dirFilesOf_ne_nil hd) _) ?_
  simp [List.countP_cons]

theorem emptyCount_absorb (B : Nat) :
    ∀ (l : List FileGroup) (cur : FileGroup),
      ((absorb B cur l).1 :: (absorb B cur l).2).countP (fun g => g.files.isEmpty) ≤
        (cur :: l).countP (fun g => g.files.isEmpty) := by
  intro l
  induction l with
  | nil => intro cur; simp [absorb]
  | cons g t ih =>
    intro cur
    simp only [absorb]
    by_cases h : cur.totalSize + g.totalSize ≤ B
    · rw [if_pos h]
      refine Nat.le_trans (ih (mergeGroups cur g)) ?_
      simp only [List.countP_cons]
      have hle : (if ((mergeGroups cur g).files.isEmpty : Bool) = true then 1 else 0) ≤
          (if (cur.files.isEmpty : Bool) = true then 1 else 0) +
            (if (g.files.isEmpty : Bool) = true then 1 else 0) := by
        by_cases hc : ((mergeGroups cur g).files.isEmpty : Bool) = true
        · have hcur : (cur.files.isEmpty : Bool) = true := by
            simp only [mergeGroups, List.isEmpty_iff, List.append_eq_nil] at hc
            simp [hc.1]
          rw [if_pos hc, if_pos hcur]
          omega
        · rw [if_neg hc]
          omega
      omega
    · rw [if_neg h]
      have := ih cur
      simp only [List.countP_cons] at this ⊢
      omega

theorem emptyCount_compactAux (B : Nat) :
    ∀ (fuel : Nat) (l : List FileGroup),
      (compactAux B fuel l).countP (fun g => g.files.isEmpty) ≤
        l.countP (fun g => g.files.isEmpty) := by
  intro fuel
  induction fuel with
  | zero =>
    intro l
    match l with
    | [] => exact Nat.le_refl _
    | g :: t => exact Nat.le_refl _
  | succ n ih =>
    intro l
    match l with
    | [] => exact Nat.le_refl _
    | g :: t =>
      simp only [compactAux]
      by_cases hc : 2 * g.totalSize < B
      · rw [if_pos hc]
        simp only [List.countP_cons]
        have h1 := ih (absorb B g t).2
        have h2 := emptyCount_absorb B t g
        simp only [List.countP_cons] at h2
        omega
      · rw [if_neg hc]
        simp only [List.countP_cons]
        have := ih t
        omega

/-- C3, counterexample: the claim that every returned batch is non-empty is
false.  A single file in directory `d/` whose serialized size (46) exceeds
the budget 10 makes the partitioner return the untouched initial group as
an empty batch next to the oversized singleton. -/
theorem claim_C3_counterexample :
    createSmartFileBatches asciiJsonSize [oversizedFile] 10 = [[], [oversizedFile]] ∧
      [] ∈ createSmartFileBatches asciiJsonSize [oversizedFile] 10 := by
  constructor
  · decide
  · decide

/-- C3, amended: every batch returned by the partitioner is non-empty except
that at most one batch may be empty — the initial accumulator group when
no file is ever placed into it (for instance when a lone file exceeds the
budget), or the single whole-input batch when the input list is empty. -/
theorem claim_C3_at_most_one_empty (sz : ScoredFile → Nat) (files : List ScoredFile)
    (B : Nat) :
    (createSmartFileBatches sz files B).countP (fun b => b.isEmpty) ≤ 1 := by
  unfold createSmartFileBatches createSmartFileBatchesSized
  by_cases h : listJsonSize sz files ≤ B
  · rw [if_pos h]
    simp only [List.map_cons, List.map_nil, List.countP_cons, List.countP_nil]
    by_cases hf : files.isEmpty = true
    · simp [hf]
    · simp [hf]
  · rw [if_neg h]
    rw [List.countP_map]
    simp only [compact]
    have h1 := emptyCount_compactAux B
      (insertionSortBy (fun a b => decide (a.totalSize ≤ b.totalSize)) (smartGroups sz files B)).length
      (insertionSortBy (fun a b => decide (a.totalSize ≤ b.totalSize)) (smartGroups sz files B))
    have h2 := List.Perm.countP_eq (fun g => g.files.isEmpty)
      (insertionSortBy_perm (fun a b => decide (a.totalSize ≤ b.totalSize)) (smartGroups sz files B))
    have h3 := emptyCount_smartGroups sz files B
    have hcomp : ∀ (l : List FileGroup),
        l.countP ((fun b : List ScoredFile => b.isEmpty) ∘ FileGroup.files) =
          l.countP (fun g => g.files.isEmpty) := by
      intro l
      rfl
    rw [hcomp]
    omega

/-! ### The relevance score equals the specification's formula -/

theorem foldl_add_eq_sum (f : α → ℚ) :
    ∀ (l : List α) (init : ℚ), l.foldl (fun a x => a + f x) init = init + (l.map f).sum := by
  intro l
  induction l with
  | nil => intro init; simp
  | cons x t ih =>
    intro init
    simp only [List.foldl_cons, List.map_cons, List.sum_cons]
    rw [ih]
    ring

theorem calculateWordMatchScore_eq_spec (lowerPath lowerContent text : String)
    (pathWeight contentWeight : ℚ) :
    calculateWordMatchScore lowerPath lowerContent text pathWeight contentWeight =
      specFieldScore lowerPath lowerContent text pathWeight contentWeight := by
  unfold calculateWordMatchScore specFieldScore
  have hfun : (fun (acc : ℚ) (word : List Char) =>
      (if strContains lowerPath ⟨word⟩ then acc + pathWeight else acc) +
        contentWeight * ((min (countOcc word lowerContent.toList) 10 : Nat) : ℚ)) =
      (fun (acc : ℚ) (word : List Char) =>
        acc + ((if strContains lowerPath ⟨word⟩ then pathWeight else 0) +
          contentWeight * ((min (countOcc word lowerContent.toList) 10 : Nat) : ℚ))) := by
    funext acc word
    by_cases h : strContains lowerPath ⟨word⟩
    · rw [if_pos h, if_pos h]
      ring
    · rw [if_neg h, if_neg h]
      ring
  rw [hfun, foldl_add_eq_sum, zero_add]

/-- C9: for every file and evaluation context, the relevance score equals
the clamp to `[0, 1]` of the sum of the per-field token scores — evidence
weighted 0.40/0.10, the current task 0.20/0.05, each of the first 5 other
tasks 0.10/0.03, the project description 0.05/0.02 — plus the fixed
path-shape bonuses, with each field score adding the path weight per token
contained in the lower-cased path and the content weight times the
occurrence count capped at 10. -/
theorem claim_C9_relevance_formula (filePath fileContent currentTask : String)
    (allTasks : List String) (projectDetail evidence : String) :
    calculateRelevanceScore filePath fileContent currentTask allTasks projectDetail evidence =
      specRelevanceScore filePath fileContent currentTask allTasks projectDetail evidence := by
  unfold calculateRelevanceScore specRelevanceScore
  dsimp only
  have h02 : (0.2 : ℚ) = 1/5 := by norm_num
  have h005 : (0.05 : ℚ) = 1/20 := by norm_num
  have h01 : (0.1 : ℚ) = 1/10 := by norm_num
  have h003 : (0.03 : ℚ) = 3/100 := by norm_num
  have h002 : (0.02 : ℚ) = 1/50 := by norm_num
  have h04 : (0.4 : ℚ) = 2/5 := by norm_num
  have hw := calculateWordMatchScore_eq_spec (filePath.toLower) (fileContent.toLower)
  have hfold := foldl_add_eq_sum
    (fun t => specFieldScore (filePath.toLower) (fileContent.toLower) t (1/10) (3/100))
    ((allTasks.filter (fun t => t ≠ currentTask)).take 5)
  have hfun2 : (fun (acc : ℚ) (t : String) =>
      acc + calculateWordMatchScore (filePath.toLower) (fileContent.toLower) t 0.1 0.03) =
      (fun (acc : ℚ) (t : String) =>
        acc + specFieldScore (filePath.toLower) (fileContent.toLower) t (1/10) (3/100)) := by
    funext acc t
    rw [hw t 0.1 0.03, h01, h003]
  rw [hfun2, hfold]
  rw [hw currentTask 0.2 0.05, hw projectDetail 0.05 0.02, hw evidence 0.4 0.1]
  rw [h02, h005, h04, h01, h002]
  generalize hc : specFieldScore (filePath.toLower) (fileContent.toLower) currentTask (1/5) (1/20) = c
  generalize ho : (((allTasks.filter (fun t => t ≠ currentTask)).take 5).map
    (fun t => specFieldScore (filePath.toLower) (fileContent.toLower) t (1/10) (3/100))).sum = o
  generalize hp : specFieldScore (filePath.toLower) (fileContent.toLower) projectDetail (1/20) (1/50) = p
  generalize he : specFieldScore (filePath.toLower) (fileContent.toLower) evidence (2/5) (1/10) = e
  generalize hb : pathBonus (filePath.toLower) = b
  have hsum : c + o + p + e + b = e + c + o + p + b := by ring
  rw [hsum]
  generalize e + c + o + p + b = s
  simp only [min_def, max_def]
  split_ifs <;> linarith

/-! ### The retry loop: trace characterization and outcomes -/

theorem evalLoop_trace_eq (jp : JsonParser) (urls : List String)
    (oracle : Nat → Except String String) (dev : Bool) (client : String) :
    (evalLoop jp urls oracle dev 3 0 0 client []).trace = specTrace urls client oracle 3 0 := by
  rcases Nat.lt_or_ge urls.length 2 with hlen | hlen
  · cases h0 : oracle 0 with
    | ok t => simp [evalLoop, specTrace, specAttemptUrl, h0, hlen]
    | error e0 =>
      cases h1 : oracle 1 with
      | ok t => simp [evalLoop, specTrace, specAttemptUrl, h0, h1, hlen, (show ¬ 1 < urls.length by omega)]
      | error e1 =>
        cases h2 : oracle 2 with
        | ok t => simp [evalLoop, specTrace, specAttemptUrl, h0, h1, h2, hlen, (show ¬ 1 < urls.length by omega)]
        | error e2 =>
          cases dev
          · simp [evalLoop, specTrace, specAttemptUrl, h0, h1, h2, hlen, (show ¬ 1 < urls.length by omega)]
          · simp [evalLoop, specTrace, specAttemptUrl, h0, h1, h2, hlen, (show ¬ 1 < urls.length by omega)]
  · rcases Nat.lt_or_ge urls.length 3 with hlen3 | hlen3
    · have hmin1 : min 1 (urls.length - 1) = 1 := by omega
      have hmin2 : min 2 (urls.length - 1) = 1 := by omega
      cases h0 : oracle 0 with
      | ok t => simp [evalLoop, specTrace, specAttemptUrl, h0]
      | error e0 =>
        cases h1 : oracle 1 with
        | ok t => simp [evalLoop, specTrace, specAttemptUrl, h0, h1, hmin1,
            (show 1 < urls.length by omega), (show ¬ urls.length < 2 by omega)]
        | error e1 =>
          cases h2 : oracle 2 with
          | ok t => simp [evalLoop, specTrace, specAttemptUrl, h0, h1, h2, hmin1, hmin2,
              (show 1 < urls.length by omega), (show ¬ urls.length < 2 by omega),
              (show ¬ 2 < urls.length by omega)]
          | error e2 =>
            cases dev
            · simp [evalLoop, specTrace, specAttemptUrl, h0, h1, h2, hmin1, hmin2,
                (show 1 < urls.length by omega), (show ¬ urls.length < 2 by omega),
                (show ¬ 2 < urls.length by omega)]
            · simp [evalLoop, specTrace, specAttemptUrl, h0, h1, h2, hmin1, hmin2,
                (show 1 < urls.length by omega), (show ¬ urls.length < 2 by omega),
                (show ¬ 2 < urls.length by omega)]
    · have hmin1 : min 1 (urls.length - 1) = 1 := by omega
      have hmin2 : min 2 (urls.length - 1) = 2 := by omega
      have hgd : urls.getD 2 (urls.getD 1 client) = urls.getD 2 client := by
        rw [List.getD_eq_getElem urls _ (by omega), List.getD_eq_getElem urls _ (by omega)]
      cases h0 : oracle 0 with
      | ok t => simp [evalLoop, specTrace, specAttemptUrl, h0]
      | error e0 =>
        cases h1 : oracle 1 with
        | ok t => simp [evalLoop, specTrace, specAttemptUrl, h0, h1, hmin1,
            (show 1 < urls.length by omega), (show ¬ urls.length < 2 by omega)]
        | error e1 =>
          cases h2 : oracle 2 with
          | ok t => simp [evalLoop, specTrace, specAttemptUrl, h0, h1, h2, hmin1, hmin2,
              (show 1 < urls.length by omega), (show ¬ urls.length < 2 by omega),
              (show 2 < urls.length by omega), List.getD_eq_getElem urls client (by omega : 1 < urls.length),
              List.getD_eq_getElem urls client (by omega : 2 < urls.length)]
          | error e2 =>
            cases dev
            · simp [evalLoop, specTrace, specAttemptUrl, h0, h1, h2, hmin1, hmin2,
                (show 1 < urls.length by omega), (show ¬ urls.length < 2 by omega),
                (show 2 < urls.length by omega)]
            · simp [evalLoop, specTrace, specAttemptUrl, h0, h1, h2, hmin1, hmin2,
                (show 1 < urls.length by omega), (show ¬ urls.length < 2 by omega),
                (show 2 < urls.length by omega)]

theorem specTrace_attemptCount (urls : List String) (client : String)
    (oracle : Nat → Except String String) :
    ∀ (r k : Nat), attemptCount (specTrace urls client oracle r k) ≤ r := by
  intro r
  induction r with
  | zero => intro k; simp [specTrace, attemptCount]
  | succ n ih =>
    intro k
    cases h : oracle k with
    | ok t => simp [specTrace, attemptCount, List.countP_cons, h]
    | error e =>
      match n with
      | 0 => simp [specTrace, attemptCount, List.countP_cons, h]
      | m + 1 =>
        have hrec := ih (k + 1)
        rw [show (specTrace urls client oracle (m + 1 + 1) k) =
          .attempt k (specAttemptUrl urls client k) :: .sleep 2000 ::
            specTrace urls client oracle (m + 1) (k + 1) by
          simp [specTrace, h]]
        simp only [attemptCount, List.countP_cons] at hrec ⊢
        simp only [List.countP]  at hrec ⊢
        simp at hrec ⊢
        omega

theorem evaluateCode_attemptCount_le (jp : JsonParser) (urls : List String)
    (oracle : Nat → Except String String) (env : Env) (client : String) :
    attemptCount (evaluateCode jp urls oracle env client).trace ≤ 3 := by
  unfold evaluateCode
  by_cases h : shouldUseMockData env = true
  · rw [if_pos h]
    simp [attemptCount]
  · rw [if_neg h]
    rw [evalLoop_trace_eq]
    exact specTrace_attemptCount urls client oracle 3 0

theorem evalLoop_exhaust_error (jp : JsonParser) (urls : List String)
    (oracle : Nat → Except String String) (client : String)
    {e0 e1 e2 : String} (h0 : oracle 0 = .error e0) (h1 : oracle 1 = .error e1)
    (h2 : oracle 2 = .error e2) :
    (evalLoop jp urls oracle false 3 0 0 client []).result =
      .error ("代码评估失败: " ++ e2) := by
  simp [evalLoop, h0, h1, h2]

theorem evalLoop_exhaust_dev (jp : JsonParser) (urls : List String)
    (oracle : Nat → Except String String) (client : String)
    {e0 e1 e2 : String} (h0 : oracle 0 = .error e0) (h1 : oracle 1 = .error e1)
    (h2 : oracle 2 = .error e2) :
    (evalLoop jp urls oracle true 3 0 0 client []).result = .ok mockEvaluationResult := by
  simp [evalLoop, h0, h1, h2]

theorem evalLoop_first_ok (jp : JsonParser) (urls : List String)
    (oracle : Nat → Except String String) (dev : Bool) (client : String)
    {t : String} (h0 : oracle 0 = .ok t) :
    (evalLoop jp urls oracle dev 3 0 0 client []).result = .ok (mkEvalResult jp t) := by
  simp [evalLoop, h0]

/-! ### The orchestration loop: step equations -/

theorem batchLoop_nonfinal_error (jp : JsonParser) (urls : List String)
    (oracles : Nat → Nat → Except String String) (env : Env)
    (params : CodeEvaluationParams) (n : Nat) (batch : List ScoredFile)
    (rest : List (List ScoredFile)) (i : Nat) (ctx : BatchContext)
    (lastRes : Option CodeEvaluationResult) (callIdx : Nat) (client : String)
    (calls : List CallRecord) (snaps : List BatchContext)
    (hrest : rest ≠ []) {e : String}
    (herr : (evaluateCode jp urls (oracles callIdx) env client).result = .error e) :
    batchLoop jp urls oracles env params n (batch :: rest) i ctx lastRes callIdx client
        calls snaps =
      batchLoop jp urls oracles env params n rest (i + 1)
        { ctx with batchResults := ctx.batchResults ++
            [⟨i + 1, n, ⟨none⟩, batch.map (·.path), false, some e⟩] }
        lastRes (callIdx + 1) (evaluateCode jp urls (oracles callIdx) env client).client
        (calls ++ [⟨.batch (i + 1) n, mkBatchParams params batch (i + 1) n ctx false,
          evaluateCode jp urls (oracles callIdx) env client⟩])
        (snaps ++ [{ ctx with batchResults := ctx.batchResults ++
            [⟨i + 1, n, ⟨none⟩, batch.map (·.path), false, some e⟩] }]) := by
  have hempty : rest.isEmpty = false := by
    cases rest with
    | nil => exact absurd rfl hrest
    | cons a b => rfl
  simp only [batchLoop, hempty, herr]
  rfl

theorem batchLoop_final_error (jp : JsonParser) (urls : List String)
    (oracles : Nat → Nat → Except String String) (env : Env)
    (params : CodeEvaluationParams) (n : Nat) (batch : List ScoredFile) (i : Nat)
    (ctx : BatchContext) (lastRes : Option CodeEvaluationResult) (callIdx : Nat)
    (client : String) (calls : List CallRecord) (snaps : List BatchContext)
    {e : String}
    (herr : (evaluateCode jp urls (oracles callIdx) env client).result = .error e) :
    batchLoop jp urls oracles env params n [batch] i ctx lastRes callIdx client
        calls snaps =
      ⟨.error e,
        calls ++ [⟨.batch (i + 1) n, mkBatchParams params batch (i + 1) n ctx true,
          evaluateCode jp urls (oracles callIdx) env client⟩],
        snaps ++ [{ ctx with batchResults := ctx.batchResults ++
          [⟨i + 1, n, ⟨none⟩, batch.map (·.path), false, some e⟩] }]⟩ := by
  simp only [batchLoop, herr]
  rfl

theorem batchLoop_nonfinal_ok (jp : JsonParser) (urls : List String)
    (oracles : Nat → Nat → Except String String) (env : Env)
    (params : CodeEvaluationParams) (n : Nat) (batch : List ScoredFile)
    (rest : List (List ScoredFile)) (i : Nat) (ctx : BatchContext)
    (lastRes : Option CodeEvaluationResult) (callIdx : Nat) (client : String)
    (calls : List CallRecord) (snaps : List BatchContext)
    (hrest : rest ≠ []) {res : CodeEvaluationResult}
    (hok : (evaluateCode jp urls (oracles callIdx) env client).result = .ok res) :
    batchLoop jp urls oracles env params n (batch :: rest) i ctx lastRes callIdx client
        calls snaps =
      (let ctx1 : BatchContext :=
        { ctx with
          processedFiles := ctx.processedFiles ++ batch.map (·.path)
          batchResults := ctx.batchResults ++
            [⟨i + 1, n, res, batch.map (·.path), true, none⟩] };
      let ctx2 : BatchContext :=
        match res.rawContent with
        | some rc => { ctx1 with keyInsights := pushInsights ctx1.keyInsights rc }
        | none => ctx1;
      batchLoop jp urls oracles env params n rest (i + 1) ctx2 (some res) (callIdx + 1)
        (evaluateCode jp urls (oracles callIdx) env client).client
        (calls ++ [⟨.batch (i + 1) n, mkBatchParams params batch (i + 1) n ctx false,
          evaluateCode jp urls (oracles callIdx) env client⟩])
        (snaps ++ [ctx2])) := by
  have hempty : rest.isEmpty = false := by
    cases rest with
    | nil => exact absurd rfl hrest
    | cons a b => rfl
  simp only [batchLoop, hempty, hok]
  cases res.rawContent with
  | none => rfl
  | some rc => rfl

theorem batchLoop_final_ok (jp : JsonParser) (urls : List String)
    (oracles : Nat → Nat → Except String String) (env : Env)
    (params : CodeEvaluationParams) (n : Nat) (batch : List ScoredFile) (i : Nat)
    (ctx : BatchContext) (lastRes : Option CodeEvaluationResult) (callIdx : Nat)
    (client : String) (calls : List CallRecord) (snaps : List BatchContext)
    {res : CodeEvaluationResult}
    (hok : (evaluateCode jp urls (oracles callIdx) env client).result = .ok res) :
    batchLoop jp urls oracles env params n [batch] i ctx lastRes callIdx client
        calls snaps =
      finishFinal jp urls oracles env params n
        { ctx with
          processedFiles := ctx.processedFiles ++ batch.map (·.path)
          batchResults := ctx.batchResults ++
            [⟨i + 1, n, res, batch.map (·.path), true, none⟩] }
        res callIdx (evaluateCode jp urls (oracles callIdx) env client).client
        (calls ++ [⟨.batch (i + 1) n, mkBatchParams params batch (i + 1) n ctx true,
          evaluateCode jp urls (oracles callIdx) env client⟩])
        snaps := by
  simp only [batchLoop, hok]
  rfl

theorem finishFinal_calls_eq (jp : JsonParser) (urls : List String)
    (oracles : Nat → Nat → Except String String) (env : Env)
    (params : CodeEvaluationParams) (n : Nat) (ctx : BatchContext)
    (res : CodeEvaluationResult) (callIdx : Nat) (client : String)
    (calls : List CallRecord) (snaps : List BatchContext) :
    (finishFinal jp urls oracles env params n ctx res callIdx client calls snaps).calls =
      (if 1 < (batchAnalysesOf ctx.batchResults).length then
        calls ++ [⟨.reconciliation, mkSummaryParams params n ctx,
          evaluateCode jp urls (oracles (callIdx + 1)) env client⟩]
      else calls) := by
  simp only [finishFinal]
  by_cases h : 1 < (batchAnalysesOf ctx.batchResults).length
  · rw [if_pos h, if_pos h]
    cases hres : (evaluateCode jp urls (oracles (callIdx + 1)) env client).result with
    | ok r2 => rfl
    | error e => rfl
  · rw [if_neg h, if_neg h]

theorem finishFinal_result_isOk (jp : JsonParser) (urls : List String)
    (oracles : Nat → Nat → Except String String) (env : Env)
    (params : CodeEvaluationParams) (n : Nat) (ctx : BatchContext)
    (res : CodeEvaluationResult) (callIdx : Nat) (client : String)
    (calls : List CallRecord) (snaps : List BatchContext) :
    (finishFinal jp urls oracles env params n ctx res callIdx client calls snaps).result.isOk
      = true := by
  simp only [finishFinal]
  by_cases h : 1 < (batchAnalysesOf ctx.batchResults).length
  · rw [if_pos h]
    cases hres : (evaluateCode jp urls (oracles (callIdx + 1)) env client).result with
    | ok r2 => simp [hres, Except.isOk, Except.toBool]
    | error e => simp [hres, Except.isOk, Except.toBool]
  · rw [if_neg h]
    simp [Except.isOk, Except.toBool]

theorem finishFinal_snapshots (jp : JsonParser) (urls : List String)
    (oracles : Nat → Nat → Except String String) (env : Env)
    (params : CodeEvaluationParams) (n : Nat) (ctx : BatchContext)
    (res : CodeEvaluationResult) (callIdx : Nat) (client : String)
    (calls : List CallRecord) (snaps : List BatchContext) :
    (finishFinal jp urls oracles env params n ctx res callIdx client calls snaps).snapshots =
      snaps ++ [ctx] := by
  simp only [finishFinal]
  by_cases h : 1 < (batchAnalysesOf ctx.batchResults).length
  · rw [if_pos h]
    cases hres : (evaluateCode jp urls (oracles (callIdx + 1)) env client).result with
    | ok r2 => rfl
    | error e => rfl
  · rw [if_neg h]

/-- C10: when a non-final batch's evaluation throws, the only change the
orchestrator makes to its context is appending one batch record with
`success = false` and a null result — `processedFiles` and `keyInsights`
are exactly as before the batch started, and the run continues on the
remaining batches from that context. -/
theorem claim_C10_failed_batch_frame (jp : JsonParser) (urls : List String)
    (oracles : Nat → Nat → Except String String) (env : Env)
    (params : CodeEvaluationParams) (n : Nat) (batch : List ScoredFile)
    (rest : List (List ScoredFile)) (i : Nat) (ctx : BatchContext)
    (lastRes : Option CodeEvaluationResult) (callIdx : Nat) (client : String)
    (calls : List CallRecord) (snaps : List BatchContext)
    (hrest : rest ≠ []) {e : String}
    (herr : (evaluateCode jp urls (oracles callIdx) env client).result = .error e) :
    ∃ ctx' : BatchContext,
      batchLoop jp urls oracles env params n (batch :: rest) i ctx lastRes callIdx client
          calls snaps =
        batchLoop jp urls oracles env params n rest (i + 1) ctx' lastRes (callIdx + 1)
          (evaluateCode jp urls (oracles callIdx) env client).client
          (calls ++ [⟨.batch (i + 1) n, mkBatchParams params batch (i + 1) n ctx false,
            evaluateCode jp urls (oracles callIdx) env client⟩])
          (snaps ++ [ctx']) ∧
        ctx'.processedFiles = ctx.processedFiles ∧
        ctx'.keyInsights = ctx.keyInsights ∧
        ctx'.batchResults = ctx.batchResults ++
          [⟨i + 1, n, ⟨none⟩, batch.map (·.path), false, some e⟩] := by
  refine ⟨{ ctx with batchResults := ctx.batchResults ++
    [⟨i + 1, n, ⟨none⟩, batch.map (·.path), false, some e⟩] }, ?_, rfl, rfl, rfl⟩
  exact batchLoop_nonfinal_error jp urls oracles env params n batch rest i ctx lastRes
    callIdx client calls snaps hrest herr

/-- C4: every `evaluateCode` call makes at most 3 Evaluator attempts; absent
the mock short-circuit its event trace is exactly the claim's retry trace —
a 2-second wait between consecutive attempts and, from the first retry on,
the next configured endpoint while an untried one remains; when all 3
attempts of a non-final batch fail the batch is recorded `success = false`
and the loop continues; when they fail on the final batch the wrapped error
is propagated as the run's fatal result, unless development mode
substitutes the canned mock result. -/
theorem claim_C4_retry_policy :
    (∀ (jp : JsonParser) (urls : List String) (oracle : Nat → Except String String)
        (env : Env) (client : String),
      attemptCount (evaluateCode jp urls oracle env client).trace ≤ 3) ∧
    (∀ (jp : JsonParser) (urls : List String) (oracle : Nat → Except String String)
        (env : Env) (client : String), shouldUseMockData env = false →
      (evaluateCode jp urls oracle env client).trace = specTrace urls client oracle 3 0) ∧
    (∀ (jp : JsonParser) (urls : List String) (oracles : Nat → Nat → Except String String)
        (env : Env) (params : CodeEvaluationParams) (n : Nat) (batch : List ScoredFile)
        (rest : List (List ScoredFile)) (i : Nat) (ctx : BatchContext)
        (lastRes : Option CodeEvaluationResult) (callIdx : Nat) (client : String)
        (calls : List CallRecord) (snaps : List BatchContext) (e : String),
      rest ≠ [] →
      (evaluateCode jp urls (oracles callIdx) env client).result = .error e →
      batchLoop jp urls oracles env params n (batch :: rest) i ctx lastRes callIdx client
          calls snaps =
        batchLoop jp urls oracles env params n rest (i + 1)
          { ctx with batchResults := ctx.batchResults ++
              [⟨i + 1, n, ⟨none⟩, batch.map (·.path), false, some e⟩] }
          lastRes (callIdx + 1) (evaluateCode jp urls (oracles callIdx) env client).client
          (calls ++ [⟨.batch (i + 1) n, mkBatchParams params batch (i + 1) n ctx false,
            evaluateCode jp urls (oracles callIdx) env client⟩])
          (snaps ++ [{ ctx with batchResults := ctx.batchResults ++
              [⟨i + 1, n, ⟨none⟩, batch.map (·.path), false, some e⟩] }])) ∧
    (∀ (jp : JsonParser) (urls : List String) (oracle : Nat → Except String String)
        (client : String) (e0 e1 e2 : String), oracle 0 = .error e0 → oracle 1 = .error e1 →
      oracle 2 = .error e2 → ∀ (env : Env), shouldUseMockData env = false → env.dev = false →
      (evaluateCode jp urls oracle env client).result = .error ("代码评估失败: " ++ e2)) ∧
    (∀ (jp : JsonParser) (urls : List String) (oracles : Nat → Nat → Except String String)
        (env : Env) (params : CodeEvaluationParams) (n : Nat) (batch : List ScoredFile)
        (i : Nat) (ctx : BatchContext) (lastRes : Option CodeEvaluationResult)
        (callIdx : Nat) (client : String) (calls : List CallRecord)
        (snaps : List BatchContext) (e : String),
      (evaluateCode jp urls (oracles callIdx) env client).result = .error e →
      (batchLoop jp urls oracles env params n [batch] i ctx lastRes callIdx client
        calls snaps).result = .error e) ∧
    (∀ (jp : JsonParser) (urls : List String) (oracle : Nat → Except String String)
        (client : String) (e0 e1 e2 : String), oracle 0 = .error e0 → oracle 1 = .error e1 →
      oracle 2 = .error e2 → ∀ (env : Env), shouldUseMockData env = false → env.dev = true →
      (evaluateCode jp urls oracle env client).result = .ok mockEvaluationResult) := by
  refine ⟨?_, ?_, ?_, ?_, ?_, ?_⟩
  · intro jp urls oracle env client
    exact evaluateCode_attemptCount_le jp urls oracle env client
  · intro jp urls oracle env client hmock
    unfold evaluateCode
    rw [if_neg (by simp [hmock])]
    exact evalLoop_trace_eq jp urls oracle env.dev client
  · intro jp urls oracles env params n batch rest i ctx lastRes callIdx client calls
      snaps e hrest herr
    exact batchLoop_nonfinal_error jp urls oracles env params n batch rest i ctx lastRes
      callIdx client calls snaps hrest herr
  · intro jp urls oracle client e0 e1 e2 h0 h1 h2 env hmock hdev
    unfold evaluateCode
    rw [if_neg (by simp [hmock])]
    rw [hdev]
    exact evalLoop_exhaust_error jp urls oracle client h0 h1 h2
  · intro jp urls oracles env params n batch i ctx lastRes callIdx client calls snaps
      e herr
    rw [batchLoop_final_error jp urls oracles env params n batch i ctx lastRes callIdx
      client calls snaps herr]
  · intro jp urls oracle client e0 e1 e2 h0 h1 h2 env hmock hdev
    unfold evaluateCode
    rw [if_neg (by simp [hmock])]
    rw [hdev]
    exact evalLoop_exhaust_dev jp urls oracle client h0 h1 h2

/-- C6: reconciliation failure is never fatal.  The final-batch handler
always returns a successful result, and when the reconciliation call
throws (including after exhausting its own retries), it returns the final
batch's own verdict instead of propagating the error. -/
theorem claim_C6_reconciliation_never_fatal :
    (∀ (jp : JsonParser) (urls : List String) (oracles : Nat → Nat → Except String String)
        (env : Env) (params : CodeEvaluationParams) (n : Nat) (ctx : BatchContext)
        (res : CodeEvaluationResult) (callIdx : Nat) (client : String)
        (calls : List CallRecord) (snaps : List BatchContext),
      (finishFinal jp urls oracles env params n ctx res callIdx client calls
        snaps).result.isOk = true) ∧
    (∀ (jp : JsonParser) (urls : List String) (oracles : Nat → Nat → Except String String)
        (env : Env) (params : CodeEvaluationParams) (n : Nat) (ctx : BatchContext)
        (res : CodeEvaluationResult) (callIdx : Nat) (client : String)
        (calls : List CallRecord) (snaps : List BatchContext) (e : String),
      1 < (batchAnalysesOf ctx.batchResults).length →
      (evaluateCode jp urls (oracles (callIdx + 1)) env client).result = .error e →
      (finishFinal jp urls oracles env params n ctx res callIdx client calls
        snaps).result = .ok res) := by
  constructor
  · intro jp urls oracles env params n ctx res callIdx client calls snaps
    exact finishFinal_result_isOk jp urls oracles env params n ctx res callIdx client
      calls snaps
  · intro jp urls oracles env params n ctx res callIdx client calls snaps e hlen herr
    simp only [finishFinal]
    rw [if_pos hlen]
    simp only [herr]

set_option maxRecDepth 10000

/-- C5, counterexample: the reconciliation call is not issued "exactly when
more than one batch was produced".  With two batches of roughly 200 kB
files, the first batch failing all three attempts and the second
succeeding, the run makes no reconciliation call at all — and still
returns successfully with the second batch's verdict. -/
theorem claim_C5_counterexample :
    (createSmartFileBatches kbJsonSize scnParams.relevantFiles MAX_BATCH_CHARS).length = 2 ∧
    (evaluateCodeInBatches kbJsonSize noParse ["u"] failThenOk scnEnv scnParams
      "u").calls.countP isReconCall = 0 ∧
    (evaluateCodeInBatches kbJsonSize noParse ["u"] failThenOk scnEnv scnParams
      "u").result.isOk = true := by
  refine ⟨by decide, by decide, by decide⟩

theorem batchAnalysesOf_length_eq_successCount :
    ∀ (brs : List BatchEvaluationResult),
      (∀ br ∈ brs, br.success = true → br.result.rawContent.isSome = true) →
      (batchAnalysesOf brs).length = brs.countP (fun br => br.success) := by
  intro brs
  induction brs with
  | nil => intro _; rfl
  | cons br t ih =>
    intro h
    have ht := ih (fun x hx => h x (List.mem_cons_of_mem br hx))
    by_cases hs : br.success = true
    · cases hrc : br.result.rawContent with
      | some rc =>
        simp only [batchAnalysesOf, List.filterMap_cons, hs, if_true, hrc,
          List.countP_cons]
        simp only [batchAnalysesOf] at ht
        simp [ht, hs]
      | none =>
        exact absurd (h br (List.mem_cons_self br t) hs) (by simp [hrc])
    · simp only [Bool.not_eq_true] at hs
      simp only [batchAnalysesOf, List.filterMap_cons, hs, List.countP_cons]
      simp only [batchAnalysesOf] at ht
      simp [ht, hs]

/-- C5, amended: the reconciliation call is issued exactly when more than
one batch analysis is available — more than one recorded batch succeeded
with parsed content (with a single batch the original request is evaluated
directly and returned, with no reconciliation call); the reconciliation
request carries no file content (`relevantFiles = []`), its prompt being
built only from the ordered processed paths and the successful batches'
summaries; when at most one analysis is available the final batch's own
verdict is returned with no extra call. -/
theorem claim_C5_reconciliation_condition :
    (∀ (sz : ScoredFile → Nat) (jp : JsonParser) (urls : List String)
        (oracles : Nat → Nat → Except String String) (env : Env)
        (params : CodeEvaluationParams) (client : String),
      shouldUseMockData env = false →
      (createSmartFileBatches sz params.relevantFiles MAX_BATCH_CHARS).length = 1 →
      evaluateCodeInBatches sz jp urls oracles env params client =
        ⟨(evaluateCode jp urls (oracles 0) env client).result,
         [⟨.single, params, evaluateCode jp urls (oracles 0) env client⟩], []⟩) ∧
    (∀ (jp : JsonParser) (urls : List String) (oracles : Nat → Nat → Except String String)
        (env : Env) (params : CodeEvaluationParams) (n : Nat) (ctx : BatchContext)
        (res : CodeEvaluationResult) (callIdx : Nat) (client : String)
        (calls : List CallRecord) (snaps : List BatchContext),
      (finishFinal jp urls oracles env params n ctx res callIdx client calls
        snaps).calls =
        (if 1 < (batchAnalysesOf ctx.batchResults).length then
          calls ++ [⟨.reconciliation, mkSummaryParams params n ctx,
            evaluateCode jp urls (oracles (callIdx + 1)) env client⟩]
        else calls)) ∧
    (∀ (params : CodeEvaluationParams) (n : Nat) (ctx : BatchContext),
      (mkSummaryParams params n ctx).relevantFiles = [] ∧
      (mkSummaryParams params n ctx).projectDetail =
        params.projectDetail ++ "\n\n" ++
          mkSummaryPrompt n ctx.processedFiles (batchAnalysesOf ctx.batchResults)) ∧
    (∀ (jp : JsonParser) (urls : List String) (oracles : Nat → Nat → Except String String)
        (env : Env) (params : CodeEvaluationParams) (n : Nat) (ctx : BatchContext)
        (res : CodeEvaluationResult) (callIdx : Nat) (client : String)
        (calls : List CallRecord) (snaps : List BatchContext),
      (batchAnalysesOf ctx.batchResults).length ≤ 1 →
      (finishFinal jp urls oracles env params n ctx res callIdx client calls
          snaps).result = .ok res ∧
        (finishFinal jp urls oracles env params n ctx res callIdx client calls
          snaps).calls = calls) ∧
    (∀ (brs : List BatchEvaluationResult),
      (∀ br ∈ brs, br.success = true → br.result.rawContent.isSome = true) →
      (batchAnalysesOf brs).length = brs.countP (fun br => br.success)) := by
  refine ⟨?_, ?_, ?_, ?_, batchAnalysesOf_length_eq_successCount⟩
  · intro sz jp urls oracles env params client hmock hone
    unfold evaluateCodeInBatches
    rw [if_neg (by simp [hmock])]
    rw [if_pos hone]
  · intro jp urls oracles env params n ctx res callIdx client calls snaps
    exact finishFinal_calls_eq jp urls oracles env params n ctx res callIdx client
      calls snaps
  · intro params n ctx
    exact ⟨rfl, rfl⟩
  · intro jp urls oracles env params n ctx res callIdx client calls snaps hle
    have hnot : ¬ 1 < (batchAnalysesOf ctx.batchResults).length := by omega
    constructor
    · simp only [finishFinal]
      rw [if_neg hnot]
    · simp only [finishFinal]
      rw [if_neg hnot]

/-! ### The insight memory: cap and freeze-after-five -/

theorem batchLoop_snapshots_chain (jp : JsonParser) (urls : List String)
    (oracles : Nat → Nat → Except String String) (env : Env)
    (params : CodeEvaluationParams) (n : Nat) :
    ∀ (batches : List (List ScoredFile)) (i : Nat) (ctx : BatchContext)
      (lastRes : Option CodeEvaluationResult) (callIdx : Nat) (client : String)
      (calls : List CallRecord) (snaps : List BatchContext),
      ∃ delta, (batchLoop jp urls oracles env params n batches i ctx lastRes callIdx
        client calls snaps).snapshots = snaps ++ delta ∧ KiChain ctx delta := by
  intro batches
  induction batches with
  | nil =>
    intro i ctx lastRes callIdx client calls snaps
    refine ⟨[], ?_, trivial⟩
    cases lastRes with
    | none => simp [batchLoop]
    | some r => simp [batchLoop]
  | cons batch rest ih =>
    intro i ctx lastRes callIdx client calls snaps
    cases hres : (evaluateCode jp urls (oracles callIdx) env client).result with
    | error e =>
      cases rest with
      | nil =>
        rw [batchLoop_final_error jp urls oracles env params n batch i ctx lastRes
          callIdx client calls snaps hres]
        exact ⟨[{ ctx with batchResults := ctx.batchResults ++
          [⟨i + 1, n, ⟨none⟩, batch.map (·.path), false, some e⟩] }], rfl,
          Or.inl rfl, trivial⟩
      | cons r rs =>
        rw [batchLoop_nonfinal_error jp urls oracles env params n batch (r :: rs) i ctx
          lastRes callIdx client calls snaps (by simp) hres]
        obtain ⟨delta, hsnap, hchain⟩ := ih (i + 1)
          { ctx with batchResults := ctx.batchResults ++
              [⟨i + 1, n, ⟨none⟩, batch.map (·.path), false, some e⟩] }
          lastRes (callIdx + 1) (evaluateCode jp urls (oracles callIdx) env client).client
          (calls ++ [⟨.batch (i + 1) n, mkBatchParams params batch (i + 1) n ctx false,
            evaluateCode jp urls (oracles callIdx) env client⟩])
          (snaps ++ [{ ctx with batchResults := ctx.batchResults ++
              [⟨i + 1, n, ⟨none⟩, batch.map (·.path), false, some e⟩] }])
        refine ⟨{ ctx with batchResults := ctx.batchResults ++
            [⟨i + 1, n, ⟨none⟩, batch.map (·.path), false, some e⟩] } :: delta, ?_,
          Or.inl rfl, hchain⟩
        rw [hsnap, List.append_assoc]
        rfl
    | ok res =>
      cases rest with
      | nil =>
        rw [batchLoop_final_ok jp urls oracles env params n batch i ctx lastRes
          callIdx client calls snaps hres]
        rw [finishFinal_snapshots]
        exact ⟨[{ ctx with
          processedFiles := ctx.processedFiles ++ batch.map (·.path)
          batchResults := ctx.batchResults ++
            [⟨i + 1, n, res, batch.map (·.path), true, none⟩] }], rfl,
          Or.inl rfl, trivial⟩
      | cons r rs =>
        rw [batchLoop_nonfinal_ok jp urls oracles env params n batch (r :: rs) i ctx
          lastRes callIdx client calls snaps (by simp) hres]
        dsimp only
        cases hrc : res.rawContent with
        | none =>
          simp only [hrc]
          obtain ⟨delta, hsnap, hchain⟩ := ih (i + 1)
            { ctx with
              processedFiles := ctx.processedFiles ++ batch.map (·.path)
              batchResults := ctx.batchResults ++
                [⟨i + 1, n, res, batch.map (·.path), true, none⟩] }
            (some res) (callIdx + 1)
            (evaluateCode jp urls (oracles callIdx) env client).client
            (calls ++ [⟨.batch (i + 1) n, mkBatchParams params batch (i + 1) n ctx false,
              evaluateCode jp urls (oracles callIdx) env client⟩])
            (snaps ++ [{ ctx with
              processedFiles := ctx.processedFiles ++ batch.map (·.path)
              batchResults := ctx.batchResults ++
                [⟨i + 1, n, res, batch.map (·.path), true, none⟩] }])
          refine ⟨{ ctx with
              processedFiles := ctx.processedFiles ++ batch.map (·.path)
              batchResults := ctx.batchResults ++
                [⟨i + 1, n, res, batch.map (·.path), true, none⟩] } :: delta, ?_,
            Or.inl rfl, hchain⟩
          rw [hsnap, List.append_assoc]
          rfl
        | some rc =>
          simp only [hrc]
          obtain ⟨delta, hsnap, hchain⟩ := ih (i + 1)
            { ctx with
              processedFiles := ctx.processedFiles ++ batch.map (·.path)
              keyInsights := pushInsights ctx.keyInsights rc
              batchResults := ctx.batchResults ++
                [⟨i + 1, n, res, batch.map (·.path), true, none⟩] }
            (some res) (callIdx + 1)
            (evaluateCode jp urls (oracles callIdx) env client).client
            (calls ++ [⟨.batch (i + 1) n, mkBatchParams params batch (i + 1) n ctx false,
              evaluateCode jp urls (oracles callIdx) env client⟩])
            (snaps ++ [{ ctx with
              processedFiles := ctx.processedFiles ++ batch.map (·.path)
              keyInsights := pushInsights ctx.keyInsights rc
              batchResults := ctx.batchResults ++
                [⟨i + 1, n, res, batch.map (·.path), true, none⟩] }])
          refine ⟨{ ctx with
              processedFiles := ctx.processedFiles ++ batch.map (·.path)
              keyInsights := pushInsights ctx.keyInsights rc
              batchResults := ctx.batchResults ++
                [⟨i + 1, n, res, batch.map (·.path), true, none⟩] } :: delta, ?_, ?_,
            hchain⟩
          · rw [hsnap, List.append_assoc]
            rfl
          · refine Or.inr ⟨checkpointInsights rc ++ summaryInsights rc, ?_⟩
            simp only [pushInsights]
            rw [List.append_assoc]

theorem insightStep_le {a b : List String} (h : InsightStep a b) (ha : a.length ≤ 5) :
    b.length ≤ 5 := by
  rcases h with h | ⟨e, h⟩
  · rw [h]; exact ha
  · rw [h]
    simp only [trim5]
    by_cases hl : 5 < (a ++ e).length
    · rw [if_pos hl]
      simp [List.length_take]
    · rw [if_neg hl]
      omega

theorem insightStep_freeze {a b : List String} (h : InsightStep a b)
    (ha : a.length = 5) : b = a := by
  rcases h with h | ⟨e, h⟩
  · exact h
  · rw [h]
    simp only [trim5]
    cases e with
    | nil =>
      rw [List.append_nil]
      rw [if_neg (by omega)]
    | cons x xs =>
      rw [if_pos (by simp [List.length_append]; omega)]
      have := List.take_left a (x :: xs)
      rw [ha] at this
      exact this

theorem kiChain_cap {c : BatchContext} {l : List BatchContext} (h : KiChain c l)
    (hc : c.keyInsights.length ≤ 5) : ∀ s ∈ l, s.keyInsights.length ≤ 5 := by
  induction l generalizing c with
  | nil => intro s hs; exact absurd hs (by simp)
  | cons x xs ih =>
    intro s hs
    rcases List.mem_cons.mp hs with h1 | h1
    · subst h1
      exact insightStep_le h.1 hc
    · exact ih h.2 (insightStep_le h.1 hc) s h1

theorem kiChain_freeze_all {c : BatchContext} {l : List BatchContext} (h : KiChain c l)
    (hc : c.keyInsights.length = 5) : ∀ s ∈ l, s.keyInsights = c.keyInsights := by
  induction l generalizing c with
  | nil => intro s hs; exact absurd hs (by simp)
  | cons x xs ih =>
    intro s hs
    have hx : x.keyInsights = c.keyInsights := insightStep_freeze h.1 hc
    rcases List.mem_cons.mp hs with h1 | h1
    · subst h1; exact hx
    · rw [← hx]
      exact ih h.2 (by rw [hx]; exact hc) s h1

theorem kiChain_freeze_get :
    ∀ (l : List BatchContext) (c : BatchContext), KiChain c l →
      ∀ (i j : Nat) (hi : i < (c :: l).length) (hj : j < (c :: l).length), i ≤ j →
        ((c :: l).get ⟨i, hi⟩).keyInsights.length = 5 →
        ((c :: l).get ⟨j, hj⟩).keyInsights = ((c :: l).get ⟨i, hi⟩).keyInsights := by
  intro l
  induction l with
  | nil =>
    intro c _ i j hi hj hij h5
    simp only [List.length_cons, List.length_nil] at hi hj
    have : i = 0 := by omega
    have : j = 0 := by omega
    subst this
    subst ‹i = 0›
    rfl
  | cons x xs ih =>
    intro c hchain i j hi hj hij h5
    match i, j with
    | 0, 0 => rfl
    | 0, j + 1 =>
      have hall := kiChain_freeze_all hchain (by simpa using h5)
      have hmem : (x :: xs).get ⟨j, by simpa using hj⟩ ∈ x :: xs := List.get_mem _ _ _
      simpa using hall _ hmem
    | i + 1, j + 1 =>
      have := ih x hchain.2 i j (by simpa using hi) (by simpa using hj) (by omega)
        (by simpa using h5)
      simpa using this

/-- C7: at every observable point of a run the carried `keyInsights` list
holds at most 5 entries; once a snapshot holds exactly 5, every later
snapshot holds the same 5 (later insights are discarded by the trim to the
first five); and each successful non-final batch contributes at most 3
checkpoint insights and at most 2 summary fragments before the trim. -/
theorem claim_C7_insight_cap (sz : ScoredFile → Nat) (jp : JsonParser)
    (urls : List String) (oracles : Nat → Nat → Except String String) (env : Env)
    (params : CodeEvaluationParams) (client : String) :
    (∀ s ∈ (⟨[], [], []⟩ : BatchContext) ::
        (evaluateCodeInBatches sz jp urls oracles env params client).snapshots,
      s.keyInsights.length ≤ 5) ∧
    (∀ (i j : Nat)
        (hi : i < ((⟨[], [], []⟩ : BatchContext) ::
          (evaluateCodeInBatches sz jp urls oracles env params client).snapshots).length)
        (hj : j < ((⟨[], [], []⟩ : BatchContext) ::
          (evaluateCodeInBatches sz jp urls oracles env params client).snapshots).length),
      i ≤ j →
      (((⟨[], [], []⟩ : BatchContext) ::
        (evaluateCodeInBatches sz jp urls oracles env params client).snapshots).get
          ⟨i, hi⟩).keyInsights.length = 5 →
      (((⟨[], [], []⟩ : BatchContext) ::
        (evaluateCodeInBatches sz jp urls oracles env params client).snapshots).get
          ⟨j, hj⟩).keyInsights =
        (((⟨[], [], []⟩ : BatchContext) ::
          (evaluateCodeInBatches sz jp urls oracles env params client).snapshots).get
            ⟨i, hi⟩).keyInsights) ∧
    (∀ rc : RawContent,
      (checkpointInsights rc).length ≤ 3 ∧ (summaryInsights rc).length ≤ 2) := by
  have hchain : KiChain (⟨[], [], []⟩ : BatchContext)
      (evaluateCodeInBatches sz jp urls oracles env params client).snapshots := by
    unfold evaluateCodeInBatches
    by_cases hmock : shouldUseMockData env = true
    · rw [if_pos hmock]
      trivial
    · rw [if_neg hmock]
      by_cases hone :
          (createSmartFileBatches sz params.relevantFiles MAX_BATCH_CHARS).length = 1
      · rw [if_pos hone]
        trivial
      · rw [if_neg hone]
        obtain ⟨delta, hsnap, hc⟩ := batchLoop_snapshots_chain jp urls oracles env params
          (createSmartFileBatches sz params.relevantFiles MAX_BATCH_CHARS).length
          (createSmartFileBatches sz params.relevantFiles MAX_BATCH_CHARS) 0
          ⟨[], [], []⟩ none 0 client [] []
        rw [hsnap]
        simpa using hc
  refine ⟨?_, ?_, ?_⟩
  · intro s hs
    rcases List.mem_cons.mp hs with h1 | h1
    · subst h1; simp
    · exact kiChain_cap hchain (by simp) s h1
  · intro i j hi hj hij h5
    exact kiChain_freeze_get _ _ hchain i j hi hj hij h5
  · intro rc
    constructor
    · simp only [checkpointInsights]
      cases rc.checkpoints with
      | none => simp
      | some cps => simp [List.length_take]
    · simp only [summaryInsights]
      cases rc.summary with
      | none => simp
      | some s => simp [List.length_take]

/-! ### The response extraction chain -/

/-- C8, counterexample: the extractor does not attempt the claimed steps 3
and 4.  On the text `hello {"a":1}` — no fenced block, whole text not
JSON, but with a brace span that parses — the four-step chain of the claim
recovers the object while the repository's `extractJsonFromMarkdown`
returns `null`. -/
theorem claim_C8_counterexample :
    specExtractChain jpBrace braceText = some { assessment := some 1 } ∧
    extractJsonFromMarkdown jpBrace braceText = none ∧
    braceSpan braceText = some "\x7b\"a\":1\x7d" := by
  refine ⟨by decide, by decide, by decide⟩

/-- C8, amended: the extractor tries, in order, (1) parsing the whole text
and (2) parsing the interior of the first fenced code block, stopping at
the first success — there is no brace-matching step and no repair step —
and it returns `null` exactly when both steps fail; `evaluateCode` wraps a
null extraction of a successful response as a tagged unstructured object
`{textContent, isJsonFormat: false, message}` rather than failing, and a
successful extraction is returned as the parsed content. -/
theorem claim_C8_extraction_chain :
    (∀ (jp : JsonParser) (text : String) (v : RawContent),
      jp text = some v → extractJsonFromMarkdown jp text = some v) ∧
    (∀ (jp : JsonParser) (text : String),
      jp text = none → extractJsonFromMarkdown jp text = (fencedBlock text).bind jp) ∧
    (∀ (jp : JsonParser) (text : String),
      extractJsonFromMarkdown jp text = none ↔
        (jp text = none ∧ (fencedBlock text).bind jp = none)) ∧
    (∀ (jp : JsonParser) (urls : List String) (oracle : Nat → Except String String)
        (env : Env) (client : String) (t : String),
      shouldUseMockData env = false → oracle 0 = .ok t →
      extractJsonFromMarkdown jp t = none →
      (evaluateCode jp urls oracle env client).result =
        .ok ⟨some { textContent := some t, isJsonFormat := some false, message := some "原始响应不是有效的JSON格式，已转换为对象" }⟩) ∧
    (∀ (jp : JsonParser) (urls : List String) (oracle : Nat → Except String String)
        (env : Env) (client : String) (t : String) (p : RawContent),
      shouldUseMockData env = false → oracle 0 = .ok t →
      extractJsonFromMarkdown jp t = some p →
      (evaluateCode jp urls oracle env client).result = .ok ⟨some p⟩) := by
  refine ⟨?_, ?_, ?_, ?_, ?_⟩
  · intro jp text v h
    simp [extractJsonFromMarkdown, h]
  · intro jp text h
    simp only [extractJsonFromMarkdown, h]
    cases hf : fencedBlock text with
    | none => rfl
    | some inner => rfl
  · intro jp text
    constructor
    · intro h
      cases hjp : jp text with
      | some v => simp [extractJsonFromMarkdown, hjp] at h
      | none =>
        refine ⟨rfl, ?_⟩
        simp only [extractJsonFromMarkdown, hjp] at h
        cases hf : fencedBlock text with
        | none => rfl
        | some inner =>
          rw [hf] at h
          simpa using h
    · intro ⟨h1, h2⟩
      simp only [extractJsonFromMarkdown, h1]
      cases hf : fencedBlock text with
      | none => rfl
      | some inner =>
        rw [hf] at h2
        simpa using h2
  · intro jp urls oracle env client t hmock hok hext
    unfold evaluateCode
    rw [if_neg (by simp [hmock])]
    rw [evalLoop_first_ok jp urls oracle env.dev client hok]
    simp [mkEvalResult, hext]
  · intro jp urls oracle env client t p hmock hok hext
    unfold evaluateCode
    rw [if_neg (by simp [hmock])]
    rw [evalLoop_first_ok jp urls oracle env.dev client hok]
    simp [mkEvalResult, hext]

/-! ### Witnesses: the claim theorems applied at concrete inputs -/

theorem claim_C2_budget_respect_witness :
    createSmartFileBatches asciiJsonSize [fileA] 1000 =
      (createSmartFileBatchesSized asciiJsonSize [fileA] 1000).map FileGroup.files ∧
    WithinBudget asciiJsonSize 1000 ⟨[fileA], 45, []⟩ :=
  ⟨(claim_C2_budget_respect asciiJsonSize [fileA] 1000).1,
   (claim_C2_budget_respect asciiJsonSize [fileA] 1000).2 ⟨[fileA], 45, []⟩ (by decide)⟩

theorem claim_C4_retry_policy_witness :
    attemptCount (evaluateCode noParse ["u"] alwaysFail scnEnv "g").trace ≤ 3 ∧
    (evaluateCode noParse ["u"] alwaysFail scnEnv "g").trace =
      specTrace ["u"] "g" alwaysFail 3 0 ∧
    batchLoop noParse ["u"] failThenOk scnEnv scnParams 2 [[fileA], [fileB]] 0 ⟨[], [], []⟩
        none 0 "u" [] [] =
      batchLoop noParse ["u"] failThenOk scnEnv scnParams 2 [[fileB]] 1
        { processedFiles := [], keyInsights := [], batchResults := [] ++
            [⟨1, 2, ⟨none⟩, [fileA].map (·.path), false, some "代码评估失败: boom"⟩] }
        none 1 (evaluateCode noParse ["u"] (failThenOk 0) scnEnv "u").client
        ([] ++ [⟨.batch 1 2, mkBatchParams scnParams [fileA] 1 2 ⟨[], [], []⟩ false,
          evaluateCode noParse ["u"] (failThenOk 0) scnEnv "u"⟩])
        ([] ++ [{ processedFiles := [], keyInsights := [], batchResults := [] ++
            [⟨1, 2, ⟨none⟩, [fileA].map (·.path), false, some "代码评估失败: boom"⟩] }]) ∧
    (evaluateCode noParse ["u"] alwaysFail scnEnv "g").result =
      .error ("代码评估失败: " ++ "boom") ∧
    (batchLoop noParse ["u"] (fun _ => alwaysFail) scnEnv scnParams 1 [[fileA]] 0
      ⟨[], [], []⟩ none 0 "u" [] []).result = .error "代码评估失败: boom" ∧
    (evaluateCode noParse ["u"] alwaysFail ⟨true, true, false⟩ "g").result =
      .ok mockEvaluationResult :=
  ⟨claim_C4_retry_policy.1 noParse ["u"] alwaysFail scnEnv "g",
   claim_C4_retry_policy.2.1 noParse ["u"] alwaysFail scnEnv "g" (by decide),
   claim_C4_retry_policy.2.2.1 noParse ["u"] failThenOk scnEnv scnParams 2 [fileA]
     [[fileB]] 0 ⟨[], [], []⟩ none 0 "u" [] [] "代码评估失败: boom" (by decide) (by decide),
   claim_C4_retry_policy.2.2.2.1 noParse ["u"] alwaysFail "g" "boom" "boom" "boom"
     rfl rfl rfl scnEnv (by decide) (by decide),
   claim_C4_retry_policy.2.2.2.2.1 noParse ["u"] (fun _ => alwaysFail) scnEnv scnParams
     1 [fileA] 0 ⟨[], [], []⟩ none 0 "u" [] [] "代码评估失败: boom" (by decide),
   claim_C4_retry_policy.2.2.2.2.2 noParse ["u"] alwaysFail "g" "boom" "boom" "boom"
     rfl rfl rfl ⟨true, true, false⟩ (by decide) (by decide)⟩

theorem claim_C5_reconciliation_condition_witness :
    evaluateCodeInBatches asciiJsonSize noParse ["u"] allOk scnEnv
        { scnParams with relevantFiles := [fileA] } "u" =
      ⟨(evaluateCode noParse ["u"] (allOk 0) scnEnv "u").result,
       [⟨.single, { scnParams with relevantFiles := [fileA] },
         evaluateCode noParse ["u"] (allOk 0) scnEnv "u"⟩], []⟩ ∧
    (finishFinal noParse ["u"] allOk scnEnv scnParams 2 ⟨[], [], []⟩ ⟨none⟩ 0 "u" []
        []).result = .ok ⟨none⟩ ∧
    (finishFinal noParse ["u"] allOk scnEnv scnParams 2 ⟨[], [], []⟩ ⟨none⟩ 0 "u" []
        []).calls = [] ∧
    (batchAnalysesOf [⟨1, 2, ⟨some {}⟩, ["a/f1"], true, none⟩]).length =
      [(⟨1, 2, ⟨some {}⟩, ["a/f1"], true, none⟩ : BatchEvaluationResult)].countP
        (fun br => br.success) :=
  ⟨claim_C5_reconciliation_condition.1 asciiJsonSize noParse ["u"] allOk scnEnv
     { scnParams with relevantFiles := [fileA] } "u" (by decide) (by decide),
   (claim_C5_reconciliation_condition.2.2.2.1 noParse ["u"] allOk scnEnv scnParams 2
     ⟨[], [], []⟩ ⟨none⟩ 0 "u" [] [] (by decide)).1,
   (claim_C5_reconciliation_condition.2.2.2.1 noParse ["u"] allOk scnEnv scnParams 2
     ⟨[], [], []⟩ ⟨none⟩ 0 "u" [] [] (by decide)).2,
   claim_C5_reconciliation_condition.2.2.2.2
     [⟨1, 2, ⟨some {}⟩, ["a/f1"], true, none⟩] (by decide)⟩

theorem claim_C6_reconciliation_never_fatal_witness :
    (finishFinal noParse ["u"] (fun _ => alwaysFail) scnEnv scnParams 2
      ⟨["a/f1", "b/f2"], [],
        [⟨1, 2, ⟨some {}⟩, ["a/f1"], true, none⟩,
         ⟨2, 2, ⟨some {}⟩, ["b/f2"], true, none⟩]⟩
      ⟨some {}⟩ 1 "u" [] []).result.isOk = true ∧
    (finishFinal noParse ["u"] (fun _ => alwaysFail) scnEnv scnParams 2
      ⟨["a/f1", "b/f2"], [],
        [⟨1, 2, ⟨some {}⟩, ["a/f1"], true, none⟩,
         ⟨2, 2, ⟨some {}⟩, ["b/f2"], true, none⟩]⟩
      ⟨some {}⟩ 1 "u" [] []).result = .ok ⟨some {}⟩ :=
  ⟨claim_C6_reconciliation_never_fatal.1 noParse ["u"] (fun _ => alwaysFail) scnEnv
     scnParams 2 ⟨["a/f1", "b/f2"], [],
       [⟨1, 2, ⟨some {}⟩, ["a/f1"], true, none⟩,
        ⟨2, 2, ⟨some {}⟩, ["b/f2"], true, none⟩]⟩ ⟨some {}⟩ 1 "u" [] [],
   claim_C6_reconciliation_never_fatal.2 noParse ["u"] (fun _ => alwaysFail) scnEnv
     scnParams 2 ⟨["a/f1", "b/f2"], [],
       [⟨1, 2, ⟨some {}⟩, ["a/f1"], true, none⟩,
        ⟨2, 2, ⟨some {}⟩, ["b/f2"], true, none⟩]⟩ ⟨some {}⟩ 1 "u" [] []
     "代码评估失败: boom" (by decide) (by decide)⟩

theorem claim_C7_insight_cap_witness :
    ((⟨[], [], []⟩ : BatchContext) :: (evaluateCodeInBatches kbJsonSize jpRich ["u"]
      allOk scnEnv scnParams "u").snapshots).get ⟨1, by decide⟩ ∈
        (⟨[], [], []⟩ : BatchContext) :: (evaluateCodeInBatches kbJsonSize jpRich ["u"]
          allOk scnEnv scnParams "u").snapshots ∧
    (((⟨[], [], []⟩ : BatchContext) :: (evaluateCodeInBatches kbJsonSize jpRich ["u"]
      allOk scnEnv scnParams "u").snapshots).get ⟨1, by decide⟩).keyInsights.length ≤ 5 ∧
    (((⟨[], [], []⟩ : BatchContext) :: (evaluateCodeInBatches kbJsonSize jpRich ["u"]
      allOk scnEnv scnParams "u").snapshots).get ⟨2, by decide⟩).keyInsights =
      (((⟨[], [], []⟩ : BatchContext) :: (evaluateCodeInBatches kbJsonSize jpRich ["u"]
        allOk scnEnv scnParams "u").snapshots).get ⟨1, by decide⟩).keyInsights ∧
    (checkpointInsights { checkpoints := some [⟨"r1", "Completed", "d"⟩] }).length ≤ 3 :=
  ⟨List.get_mem _ _ _,
   (claim_C7_insight_cap kbJsonSize jpRich ["u"] allOk scnEnv scnParams "u").1 _
     (List.get_mem _ _ _),
   (claim_C7_insight_cap kbJsonSize jpRich ["u"] allOk scnEnv scnParams "u").2.1 1 2
     (by decide) (by decide) (by decide) (by decide),
   ((claim_C7_insight_cap kbJsonSize jpRich ["u"] allOk scnEnv scnParams "u").2.2
     { checkpoints := some [⟨"r1", "Completed", "d"⟩] }).1⟩

theorem claim_C8_extraction_chain_witness :
    extractJsonFromMarkdown jpBrace "\x7b\"a\":1\x7d" = some { assessment := some 1 } ∧
    extractJsonFromMarkdown jpBrace "zzz" = (fencedBlock "zzz").bind jpBrace ∧
    (extractJsonFromMarkdown jpBrace braceText = none ↔
      (jpBrace braceText = none ∧ (fencedBlock braceText).bind jpBrace = none)) ∧
    (evaluateCode noParse ["u"] okNow scnEnv "u").result =
      .ok ⟨some { textContent := some "raw", isJsonFormat := some false, message := some "原始响应不是有效的JSON格式，已转换为对象" }⟩ ∧
    (evaluateCode jpRich ["u"] okNow scnEnv "u").result =
      .ok ⟨some { checkpoints := some
                    [⟨"r1", "Completed", "details one"⟩,
                     ⟨"r2", "Not completed", "details two"⟩,
                     ⟨"r3", "Partially completed", "details three"⟩]
                  summary := some "first long enough fragment | second long enough fragment" }⟩ :=
  ⟨claim_C8_extraction_chain.1 jpBrace "\x7b\"a\":1\x7d" { assessment := some 1 }
     (by decide),
   claim_C8_extraction_chain.2.1 jpBrace "zzz" (by decide),
   claim_C8_extraction_chain.2.2.1 jpBrace braceText,
   claim_C8_extraction_chain.2.2.2.1 noParse ["u"] okNow scnEnv "u" "raw" (by decide)
     rfl (by decide),
   claim_C8_extraction_chain.2.2.2.2 jpRich ["u"] okNow scnEnv "u" "raw"
     { checkpoints := some
               [⟨"r1", "Completed", "details one"⟩,
                ⟨"r2", "Not completed", "details two"⟩,
                ⟨"r3", "Partially completed", "details three"⟩]
       summary := some "first long enough fragment | second long enough fragment" }
     (by decide) rfl (by decide)⟩

theorem claim_C10_failed_batch_frame_witness :
    ∃ ctx' : BatchContext,
      batchLoop noParse ["u"] failThenOk scnEnv scnParams 2 [[fileA], [fileB]] 0
          ⟨[], [], []⟩ none 0 "u" [] [] =
        batchLoop noParse ["u"] failThenOk scnEnv scnParams 2 [[fileB]] 1 ctx' none 1
          (evaluateCode noParse ["u"] (failThenOk 0) scnEnv "u").client
          ([] ++ [⟨.batch 1 2, mkBatchParams scnParams [fileA] 1 2 ⟨[], [], []⟩ false,
            evaluateCode noParse ["u"] (failThenOk 0) scnEnv "u"⟩])
          ([] ++ [ctx']) ∧
        ctx'.processedFiles = [] ∧
        ctx'.keyInsights = [] ∧
        ctx'.batchResults = [] ++
          [⟨1, 2, ⟨none⟩, [fileA].map (·.path), false, some "代码评估失败: boom"⟩] :=
  claim_C10_failed_batch_frame noParse ["u"] failThenOk scnEnv scnParams 2 [fileA]
    [[fileB]] 0 ⟨[], [], []⟩ none 0 "u" [] [] (by decide) (by decide)
